import Mathlib

/-!
# Statistics server: frequency aggregator and session protocol

A shallow embedding of `src/Server/main.cpp` (and of the decoding side of
`src/Client/main.cpp`).

Conventions of the embedding.

* `int32_t` values are `Int`; the predicate `isInt32` states the range.  The
  occurrence counters of `std::map<int32_t, int32_t>` are stored through
  `wrapInt32`, so a counter that leaves the 32-bit range wraps.
* `size_t` and `uint32_t` values are `Nat`.
* `std::map<int32_t, int32_t>` is a list of `(key, count)` pairs kept in
  strictly ascending key order, which is the iteration order of the map.
* The `double` values computed by `findMedian` are sums and halves of
  `int32_t` values; these operations are exact in IEEE-754 binary64, so the
  value is carried as a rational number.
* Code with undefined behaviour (division by zero, indexing past the end of a
  vector) returns `none`.
* A socket is the list of the outcomes of the future `recv` calls: a chunk of
  available bytes, end of stream, or an error.  `send` always succeeds and the
  bytes sent are collected in a list.
* The loop `while (running)` of `handleClient` takes the number of times the
  shutdown flag is still read as `true`.
-/

namespace StatServer

/-! ## Machine integers -/

/-- Range of a signed 32-bit integer. -/
def isInt32 (x : Int) : Prop := -2147483648 ≤ x ∧ x < 2147483648

instance (x : Int) : Decidable (isInt32 x) := by
  unfold isInt32; infer_instance

/-- Two's complement reduction of an integer to the `int32_t` range. -/
def wrapInt32 (x : Int) : Int := (x + 2147483648) % 4294967296 - 2147483648

/-! ## Frequency tables -/

/-- The type `std::map<int32_t, int32_t>`: pairs `(value, count)` in ascending
key order. -/
abbrev FreqMap := List (Int × Int)

/-- The statement `frequencyMap[k] += v` on an ordered map: a missing key is
first inserted with count `0`. -/
def mapAdd : FreqMap → Int → Int → FreqMap
  | [], k, v => [(k, wrapInt32 (0 + v))]
  | (k', c) :: rest, k, v =>
    if k < k' then (k, wrapInt32 (0 + v)) :: (k', c) :: rest
    else if k = k' then (k', wrapInt32 (c + v)) :: rest
    else (k', c) :: mapAdd rest k v

/-- Source function `countFrequenciesInRange`: the loop visits the indices `i` with
`start ≤ i < end` and `i < numbers.size()` in increasing order and executes
`frequencyMap[numbers[i]]++`. -/
def countFrequenciesInRange (numbers : List Int) (start stop : Nat) : FreqMap :=
  ((numbers.drop start).take (stop - start)).foldl (fun m x => mapAdd m x 1) []

/-- Source function `findMode`. -/
def findMode (frequencyMap : FreqMap) : List Int :=
  let maxFrequency := frequencyMap.foldl (fun mx pair => max mx pair.2) 0
  (frequencyMap.filter (fun pair => pair.2 == maxFrequency)).map (fun pair => pair.1)

/-- The vector `sortedNumbers` of `findMedian` before the call of `std::sort`:
every key repeated `count` times, in map order. -/
def expandMap (frequencyMap : FreqMap) : List Int :=
  frequencyMap.flatMap (fun pair => List.replicate pair.2.toNat pair.1)

/-- Source function `findMedian`.  `sortedNumbers[i]` is unchecked, so an index past the end
gives `none`; the index `size / 2 - 1` is computed in `size_t`. -/
def findMedian (frequencyMap : FreqMap) (size : Nat) : Option ℚ :=
  let sortedNumbers := (expandMap frequencyMap).insertionSort (· ≤ ·)
  if size % 2 = 1 then
    match sortedNumbers[size / 2]? with
    | some x => some (x : ℚ)
    | none => none
  else
    match sortedNumbers[size / 2]?, sortedNumbers[(size / 2 + 18446744073709551616 - 1) % 18446744073709551616]? with
    | some x, some y => some (((x : ℚ) + (y : ℚ)) / 2)
    | _, _ => none

/-- The struct `Result`. -/
structure Result where
  mode : List Int
  median : ℚ
deriving DecidableEq, Repr

/-- The merge loop of `processArray`: `frequencyMap[pair.first] += pair.second`
for every pair of every per-thread table, in order. -/
def mergeMaps (frequencyMaps : List FreqMap) : FreqMap :=
  frequencyMaps.foldl (fun acc freq => freq.foldl (fun m pair => mapAdd m pair.1 pair.2) acc) []

/-- The bounds `(start, end)` of the segment given to thread `i`. -/
def segmentBounds (size threadCount i : Nat) : Nat × Nat :=
  let segmentSize := size / threadCount
  let start := i * segmentSize
  (start, if i = threadCount - 1 then size else start + segmentSize)

/-- The table `frequencyMap` of `processArray` after the merge loop.  Thread
`i` writes only `frequencyMaps[i]` and all threads are joined before the
merge, so the per-thread tables are those of a sequential run. -/
def mergedTable (numbers : List Int) (threadCount : Nat) : FreqMap :=
  mergeMaps ((List.range threadCount).map (fun i =>
    countFrequenciesInRange numbers (segmentBounds numbers.length threadCount i).1
      (segmentBounds numbers.length threadCount i).2))

/-- Source function `processArray`.  The division `numbers.size() / threadCount` is
undefined for `threadCount = 0`. -/
def processArray (numbers : List Int) (threadCount : Nat) : Option Result :=
  if threadCount = 0 then none
  else
    let frequencyMap := mergedTable numbers threadCount
    match findMedian frequencyMap numbers.length with
    | some median => some { mode := findMode frequencyMap, median := median }
    | none => none

/-! ## Wire codec -/

/-- A byte on the wire. -/
abbrev Byte := Fin 256

/-- The outcome of one `recv` call: the bytes available at that moment, an
orderly end of stream (`recv` returns `0`) or an error (`recv` returns `-1`). -/
inductive RecvEvent
  | data (bytes : List Byte)
  | eof
  | err
deriving DecidableEq, Repr

/-- The receiving side of a connection: the future outcomes of `recv`. -/
abbrev Socket := List RecvEvent

/-- The call `recv(socket, p, len, 0)`: returns the byte count, the bytes
stored at `p`, and the socket afterwards.  A chunk longer than `len` is split
and its tail stays available. -/
def recv (sock : Socket) (len : Nat) : Int × List Byte × Socket :=
  match sock with
  | [] => (0, [], [])
  | RecvEvent.eof :: rest => (0, [], rest)
  | RecvEvent.err :: rest => (-1, [], rest)
  | RecvEvent.data bytes :: rest =>
    if bytes.length ≤ len then ((bytes.length : Int), bytes, rest)
    else ((len : Int), bytes.take len, RecvEvent.data (bytes.drop len) :: rest)

/-- The loop of `receive_exact`; `buffer` holds the `received` bytes read so
far.  Every iteration that does not return adds at least one byte, so the
first argument, an iteration bound, is never exhausted when it starts at
`length`. -/
def receive_exact_loop (length : Nat) : Nat → Socket → List Byte → Int × List Byte × Socket
  | 0, sock, buffer => ((buffer.length : Int), buffer, sock)
  | bound + 1, sock, buffer =>
    if buffer.length < length then
      match recv sock (length - buffer.length) with
      | (bytes, chunk, sock1) =>
        if bytes ≤ 0 then (bytes, buffer, sock1)
        else receive_exact_loop length bound sock1 (buffer ++ chunk)
    else ((buffer.length : Int), buffer, sock)

/-- Source function `receive_exact` (identical in server and client): the return value,
the buffer contents and the socket afterwards. -/
def receive_exact (sock : Socket) (length : Nat) : Int × List Byte × Socket :=
  receive_exact_loop length length sock []

/-- The value `ntohl(x)` of a 32-bit word `x` whose memory holds the given
bytes in order: the big-endian number. -/
def ntohl (bytes : List Byte) : Nat :=
  bytes.foldl (fun acc b => acc * 256 + b.val) 0

/-- The memory bytes, in order, of `htonl(x)` for `x` converted to `uint32_t`. -/
def htonl (x : Nat) : List Byte :=
  [Fin.ofNat (x / 16777216), Fin.ofNat (x / 65536), Fin.ofNat (x / 256), Fin.ofNat x]

/-- Conversion `uint32_t` to `int32_t`. -/
def toInt32 (u : Nat) : Int :=
  if u % 4294967296 < 2147483648 then ((u % 4294967296 : Nat) : Int)
  else ((u % 4294967296 : Nat) : Int) - 4294967296

/-- Conversion `int32_t` to `uint32_t`. -/
def toUInt32 (x : Int) : Nat := (x % 4294967296).toNat

/-- The loop `array[i] = ntohl(array[i])` over the `array_size` words received
into the vector. -/
def decodeArray : Nat → List Byte → List Int
  | 0, _ => []
  | n + 1, bytes => toInt32 (ntohl (bytes.take 4)) :: decodeArray n (bytes.drop 4)

/-- The client loop `array[i] = htonl(array[i])` followed by sending the vector
memory. -/
def encodeArray (array : List Int) : List Byte :=
  array.flatMap (fun x => htonl (toUInt32 x))

/-- The IEEE-754 binary64 bit pattern (what `memcpy` copies out of a `double`)
of a value that is exactly representable as a normal number or zero; every
median computed by `findMedian` is such a value. -/
def doubleBits (q : ℚ) : Nat :=
  if q = 0 then 0
  else
    let n := q.num.natAbs
    let exponent : Int := (Nat.log2 n : Int) - (Nat.log2 q.den : Int)
    let mantissa := n * 2 ^ (52 - Nat.log2 n) - 2 ^ 52
    (if q < 0 then 2 ^ 63 else 0) + (exponent + 1023).toNat * 2 ^ 52 + mantissa

/-- Source function `double_to_network`, applied to the bit pattern `temp` of the value. -/
def double_to_network (temp : Nat) : List Byte :=
  (List.range 8).map (fun i => Fin.ofNat ((temp >>> (56 - i * 8)) &&& 0xFF))

/-! ## Session -/

/-- The constant `MAX_ARRAY_SIZE`. -/
def MAX_ARRAY_SIZE : Nat := 100000

/-- The local variables of `handleClient`. -/
structure Session where
  arrays : List (List Int)
  threadCounts : List Nat
  data_received : Bool
  results : List Result
  computation_done : Bool
deriving DecidableEq, Repr

/-- The values of the locals when `handleClient` enters its loop. -/
def Session.initial : Session :=
  { arrays := [], threadCounts := [], data_received := false, results := [],
    computation_done := false }

/-- How one iteration of the loop of `handleClient` ends, with the bytes sent
during it. -/
inductive Outcome
  | proceed (st : Session) (sent : List Byte) (sock : Socket)
  | closed (st : Session) (sent : List Byte)
  | exited (sent : List Byte)
  | crashed (sent : List Byte)
deriving DecidableEq, Repr

/-- The loop of the Compute branch after `results.clear()`:
`results.push_back(processArray(arrays[i], threadCounts[i]))` for every index
of `arrays`. -/
def computeResults : List (List Int) → List Nat → Option (List Result)
  | [], _ => some []
  | _ :: _, [] => none
  | array :: arrays, threadCount :: threadCounts =>
    match processArray array threadCount with
    | none => none
    | some result =>
      match computeResults arrays threadCounts with
      | none => none
      | some results => some (result :: results)

/-- The bytes sent for one result by the FetchResults branch. -/
def sendResult (result : Result) : List Byte :=
  htonl result.mode.length ++ result.mode.flatMap (fun val => htonl (toUInt32 val))
    ++ double_to_network (doubleBits result.median)

/-- The bytes sent by the FetchResults branch after the status byte `0x00`. -/
def sendResults (results : List Result) : List Byte :=
  htonl results.length ++ results.flatMap sendResult

/-- One iteration of the loop body of `handleClient`.
`proceed`: the loop goes on; `closed`: `break`, the connection is closed;
`exited`: `error()` was called, which ends the process with `exit`;
`crashed`: undefined behaviour inside `processArray`. -/
def handleMessage (st : Session) (sock : Socket) : Outcome :=
  match receive_exact sock 1 with
  | (n0, typeBytes, sock1) =>
    if n0 ≤ 0 then Outcome.closed st []
    else
      let msg_type : Byte := typeBytes.headD 0
      if msg_type = 0x01 then
        match receive_exact sock1 4 with
        | (n1, sizeBytes, sock2) =>
          if n1 ≤ 0 then Outcome.exited []
          else
            match receive_exact sock2 4 with
            | (n2, threadBytes, sock3) =>
              if n2 ≤ 0 then Outcome.exited []
              else
                let array_size := ntohl sizeBytes
                let num_threads := ntohl threadBytes
                if array_size > MAX_ARRAY_SIZE ∨ array_size = 0 then Outcome.closed st []
                else
                  match receive_exact sock3 (array_size * 4) with
                  | (n3, arrayBytes, sock4) =>
                    if n3 ≤ 0 then Outcome.exited []
                    else
                      Outcome.proceed
                        { st with
                          arrays := st.arrays ++ [decodeArray array_size arrayBytes]
                          threadCounts := st.threadCounts ++ [num_threads]
                          data_received := true }
                        [] sock4
      else if msg_type = 0x02 then
        let status : Byte := if st.data_received then 0x00 else 0x01
        if st.data_received then
          match computeResults st.arrays st.threadCounts with
          | none => Outcome.crashed [status]
          | some results =>
            Outcome.proceed { st with results := results, computation_done := true } [status] sock1
        else Outcome.proceed st [status] sock1
      else if msg_type = 0x03 then
        let status : Byte :=
          if st.computation_done then 0x00 else (if st.data_received then 0x01 else 0x02)
        if status = 0x00 then Outcome.proceed st ([status] ++ sendResults st.results) sock1
        else Outcome.proceed st [status] sock1
      else Outcome.closed st []

/-- The loop `while (running)` of `handleClient` from given values of the
locals; the first argument counts the iterations for which `running` is still
`true`, and `sent` collects the bytes sent so far. -/
def sessionLoop : Nat → Session → Socket → List Byte → Outcome
  | 0, st, _, sent => Outcome.closed st sent
  | running + 1, st, sock, sent =>
    match handleMessage st sock with
    | Outcome.proceed st1 out sock1 => sessionLoop running st1 sock1 (sent ++ out)
    | Outcome.closed st1 out => Outcome.closed st1 (sent ++ out)
    | Outcome.exited out => Outcome.exited (sent ++ out)
    | Outcome.crashed out => Outcome.crashed (sent ++ out)

/-- Source function `handleClient`. -/
def handleClient (running : Nat) (sock : Socket) : Outcome :=
  sessionLoop running Session.initial sock []

/-- The bytes a socket delivers before its first end of stream or error. -/
def delivered : Socket → List Byte
  | [] => []
  | RecvEvent.eof :: _ => []
  | RecvEvent.err :: _ => []
  | RecvEvent.data [] :: _ => []
  | RecvEvent.data (b :: bytes) :: rest => b :: bytes ++ delivered rest

/-- The SubmitArray frame as sent by the client. -/
def submitFrame (array : List Int) (num_threads : Nat) : List Byte :=
  [0x01] ++ htonl array.length ++ htonl num_threads ++ encodeArray array

/-! ## Notions used to state the properties -/

/-- The count stored for key `k`, or `0` when the key is absent. -/
def mapGet : FreqMap → Int → Int
  | [], _ => 0
  | (k', c) :: rest, k => if k = k' then c else mapGet rest k

/-- The keys of a table, in table order. -/
def mapKeys (m : FreqMap) : List Int := m.map Prod.fst

/-- The table `m` is the frequency table of the sequence `L`: ascending keys,
one key per value of `L`, each with its number of occurrences. -/
def Tabulates (m : FreqMap) (L : List Int) : Prop :=
  (mapKeys m).Sorted (· < ·) ∧ (∀ k, k ∈ mapKeys m ↔ k ∈ L) ∧ ∀ k, mapGet m k = (L.count k : Int)

/-- The median of an ascending sequence: the middle element when the length
is odd, the exact average of the two middle elements when it is even. -/
def medianOfSorted (s : List Int) : ℚ :=
  if s.length % 2 = 1 then (s.getD (s.length / 2) 0 : ℚ)
  else ((s.getD (s.length / 2 - 1) 0 : ℚ) + (s.getD (s.length / 2) 0 : ℚ)) / 2

/-- A session state as the data model describes it: one worker count per
array, every array of length `1..MAX_ARRAY_SIZE`, every worker count positive. -/
def Session.WellFormed (st : Session) : Prop :=
  st.arrays.length = st.threadCounts.length ∧
    (∀ a ∈ st.arrays, 1 ≤ a.length ∧ a.length ≤ MAX_ARRAY_SIZE) ∧
    ∀ t ∈ st.threadCounts, 1 ≤ t

instance (st : Session) : Decidable st.WellFormed := by
  unfold Session.WellFormed; infer_instance

/-- The session states that `handleClient` can be in at the start of a loop
iteration, whatever the socket delivers. -/
inductive Reachable : Session → Prop
  | initial : Reachable Session.initial
  | step (st st1 : Session) (sock sock1 : Socket) (sent : List Byte) :
      Reachable st → handleMessage st sock = Outcome.proceed st1 sent sock1 → Reachable st1

/-- The elements visited by thread `i` of `processArray`. -/
def segment (numbers : List Int) (threadCount i : Nat) : List Int :=
  (numbers.drop (segmentBounds numbers.length threadCount i).1).take
    ((segmentBounds numbers.length threadCount i).2 - (segmentBounds numbers.length threadCount i).1)

/-! ## Client: reading the reply of FetchResults -/

/-- Source function `network_to_double` of the client.  The value returned is the bit
pattern `temp` that `memcpy` copies into the `double`. -/
def network_to_double (buffer : List Byte) : Nat :=
  (List.range 8).foldl (fun temp i => temp ||| ((buffer.getD i 0).val <<< (56 - i * 8))) 0

/-- The body of the client loop over the results (`main` of the client, lines
129 to 145): the mode values and the bit pattern of the median, with the
socket afterwards.  `none` stands for a call of `error()`. -/
def clientReadResult (sock : Socket) : Option ((List Int × Nat) × Socket) :=
  match receive_exact sock 4 with
  | (n1, sizeBytes, sock1) =>
    if n1 ≤ 0 then none
    else
      let mode_size := ntohl sizeBytes
      match receive_exact sock1 (mode_size * 4) with
      | (n2, modeBytes, sock2) =>
        if n2 ≤ 0 then none
        else
          match receive_exact sock2 8 with
          | (n3, median_buffer, sock3) =>
            if n3 ≤ 0 then none
            else some ((decodeArray mode_size modeBytes, network_to_double median_buffer), sock3)

/-- The client loop `for (i = 0; i < num_results; ++i)`. -/
def clientReadLoop : Nat → Socket → Option (List (List Int × Nat) × Socket)
  | 0, sock => some ([], sock)
  | n + 1, sock =>
    match clientReadResult sock with
    | none => none
    | some (result, sock1) =>
      match clientReadLoop n sock1 with
      | none => none
      | some (results, sock2) => some (result :: results, sock2)

/-- The client after it has received the status `0x00` (`main` of the client,
lines 123 to 154). -/
def clientReadResults (sock : Socket) : Option (List (List Int × Nat) × Socket) :=
  match receive_exact sock 4 with
  | (n, countBytes, sock1) =>
    if n ≤ 0 then none else clientReadLoop (ntohl countBytes) sock1

/-! ## Further notions used to state the properties -/

/-- The `width`-byte big-endian representation of `x` reduced modulo
`256 ^ width`: most significant byte first. -/
def bigEndianBytes : Nat → Nat → List Byte
  | 0, _ => []
  | width + 1, x => Fin.ofNat (x / 256 ^ width) :: bigEndianBytes width x

/-- The return value of the first `recv` call on the socket that does not
deliver a byte: `0` at the end of the stream, `-1` at an error. -/
def firstFailure : Socket → Int
  | [] => 0
  | RecvEvent.eof :: _ => 0
  | RecvEvent.err :: _ => -1
  | RecvEvent.data [] :: _ => 0
  | RecvEvent.data (_ :: _) :: rest => firstFailure rest

/-- The session states reached from the initial state by handling messages
none of which is a Compute: every handled message starts with a byte other
than `0x02`. -/
inductive ReachableWithoutCompute : Session → Prop
  | initial : ReachableWithoutCompute Session.initial
  | step (st st1 : Session) (sock sock1 : Socket) (sent : List Byte) (b : Byte)
      (tail : List Byte) :
      ReachableWithoutCompute st → delivered sock = b :: tail → b ≠ 0x02 →
      handleMessage st sock = Outcome.proceed st1 sent sock1 → ReachableWithoutCompute st1

/-! ## Frequency tables: lemmas -/

theorem wrapInt32_of_range (x : Int) (h0 : 0 ≤ x) (h1 : x < 2147483648) : wrapInt32 x = x := by
  unfold wrapInt32
  omega

theorem mapGet_of_not_mem (m : FreqMap) (k : Int) (h : k ∉ mapKeys m) : mapGet m k = 0 := by
  induction m with
  | nil => rfl
  | cons p rest ih =>
    obtain ⟨k0, c⟩ := p
    simp only [mapKeys, List.map_cons, List.mem_cons, not_or] at h
    simp only [mapGet, if_neg h.1]
    exact ih h.2

theorem mapKeys_mapAdd (m : FreqMap) (k v : Int) (x : Int) :
    x ∈ mapKeys (mapAdd m k v) ↔ x = k ∨ x ∈ mapKeys m := by
  induction m with
  | nil => simp [mapAdd, mapKeys]
  | cons p rest ih =>
    obtain ⟨k0, c⟩ := p
    simp only [mapAdd]
    split_ifs with h1 h2
    · simp [mapKeys]
    · subst h2
      simp [mapKeys]
    · simp only [mapKeys, List.map_cons, List.mem_cons] at ih ⊢
      rw [ih]
      tauto

theorem sorted_mapAdd (m : FreqMap) (k v : Int) (hs : (mapKeys m).Sorted (· < ·)) :
    (mapKeys (mapAdd m k v)).Sorted (· < ·) := by
  induction m with
  | nil => simp [mapAdd, mapKeys]
  | cons p rest ih =>
    obtain ⟨k0, c⟩ := p
    have hs0 : (∀ b ∈ mapKeys rest, k0 < b) ∧ (mapKeys rest).Sorted (· < ·) := by
      simpa [mapKeys] using hs
    simp only [mapAdd]
    split_ifs with h1 h2
    · have : mapKeys ((k, wrapInt32 (0 + v)) :: (k0, c) :: rest) = k :: mapKeys ((k0, c) :: rest) := rfl
      rw [this, List.sorted_cons]
      refine ⟨?_, hs⟩
      intro b hb
      have hb1 : b = k0 ∨ b ∈ mapKeys rest := by simpa [mapKeys] using hb
      rcases hb1 with hb1 | hb1
      · omega
      · have := hs0.1 b hb1
        omega
    · simpa [mapKeys] using hs
    · have : mapKeys ((k0, c) :: mapAdd rest k v) = k0 :: mapKeys (mapAdd rest k v) := rfl
      rw [this, List.sorted_cons]
      refine ⟨?_, ih hs0.2⟩
      intro b hb
      rw [mapKeys_mapAdd] at hb
      rcases hb with hb | hb
      · omega
      · exact hs0.1 b hb

theorem mapGet_mapAdd (m : FreqMap) (k v : Int) (hs : (mapKeys m).Sorted (· < ·)) (x : Int) :
    mapGet (mapAdd m k v) x = if x = k then wrapInt32 (mapGet m k + v) else mapGet m x := by
  induction m with
  | nil =>
    simp [mapAdd, mapGet]
  | cons p rest ih =>
    obtain ⟨k0, c⟩ := p
    have hs0 : (∀ b ∈ mapKeys rest, k0 < b) ∧ (mapKeys rest).Sorted (· < ·) := by
      simpa [mapKeys] using hs
    by_cases hx : x = k
    · subst hx
      simp only [mapAdd, if_true]
      by_cases h1 : x < k0
      · have hk : x ∉ mapKeys rest := fun hmem => by
          have := hs0.1 x hmem
          omega
        have hne : x ≠ k0 := by omega
        simp [h1, mapGet, hne, mapGet_of_not_mem rest x hk]
      · by_cases h2 : x = k0
        · subst h2
          simp [mapGet]
        · simp only [if_neg h1, if_neg h2, mapGet]
          rw [ih hs0.2]
          simp
    · simp only [mapAdd, if_neg hx]
      by_cases h1 : k < k0
      · simp [h1, mapGet, hx]
      · by_cases h2 : k = k0
        · subst h2
          simp [mapGet, hx]
        · simp only [if_neg h1, if_neg h2, mapGet]
          rw [ih hs0.2]
          simp [hx]

theorem mapGet_of_mem (m : FreqMap) (hs : (mapKeys m).Sorted (· < ·)) (k c : Int)
    (h : (k, c) ∈ m) : mapGet m k = c := by
  induction m with
  | nil => simp at h
  | cons p rest ih =>
    obtain ⟨k0, c0⟩ := p
    have hs0 : (∀ b ∈ mapKeys rest, k0 < b) ∧ (mapKeys rest).Sorted (· < ·) := by
      simpa [mapKeys] using hs
    rcases List.mem_cons.1 h with h1 | h1
    · cases h1
      simp [mapGet]
    · have hk : k ∈ mapKeys rest := List.mem_map.2 ⟨(k, c), h1, rfl⟩
      have hlt := hs0.1 k hk
      have hne : k ≠ k0 := by omega
      simp only [mapGet, if_neg hne]
      exact ih hs0.2 h1

theorem tabulates_nil : Tabulates [] [] := by
  refine ⟨?_, ?_, ?_⟩
  · simp [mapKeys]
  · intro k
    simp [mapKeys]
  · intro k
    simp [mapGet]

theorem tabulates_perm {m : FreqMap} {L L2 : List Int} (h : Tabulates m L) (hp : L.Perm L2) :
    Tabulates m L2 := by
  refine ⟨h.1, ?_, ?_⟩
  · intro k
    rw [h.2.1 k]
    exact hp.mem_iff
  · intro k
    rw [h.2.2 k, hp.count_eq]

theorem tabulates_pos {m : FreqMap} {L : List Int} (h : Tabulates m L) (p : Int × Int)
    (hp : p ∈ m) : p.2 = (L.count p.1 : Int) ∧ 0 < p.2 := by
  have h1 : mapGet m p.1 = p.2 := mapGet_of_mem m h.1 p.1 p.2 hp
  have h2 : p.1 ∈ L := (h.2.1 p.1).1 (List.mem_map.2 ⟨p, hp, rfl⟩)
  have h3 : 0 < L.count p.1 := List.count_pos_iff.2 h2
  have h4 := h.2.2 p.1
  constructor
  · omega
  · omega

theorem tabulates_mapAdd {m : FreqMap} {L : List Int} (k v : Int) (h : Tabulates m L)
    (hv : 0 < v) (hb : (L.count k : Int) + v < 2147483648) :
    Tabulates (mapAdd m k v) (L ++ List.replicate v.toNat k) := by
  have hvn : v.toNat ≠ 0 := by omega
  refine ⟨sorted_mapAdd m k v h.1, ?_, ?_⟩
  · intro x
    rw [mapKeys_mapAdd, h.2.1 x, List.mem_append, List.mem_replicate]
    constructor
    · rintro (hx | hx)
      · exact Or.inr ⟨hvn, hx⟩
      · exact Or.inl hx
    · rintro (hx | hx)
      · exact Or.inr hx
      · exact Or.inl hx.2
  · intro x
    rw [mapGet_mapAdd m k v h.1, List.count_append, List.count_replicate]
    by_cases hx : x = k
    · subst hx
      rw [if_pos rfl, h.2.2 x, wrapInt32_of_range _ (by omega) hb]
      simp only [beq_self_eq_true, if_true]
      push_cast
      omega
    · have hx2 : ¬ ((k == x) = true) := by
        simpa using (fun hkx : k = x => hx hkx.symm)
      rw [if_neg hx, h.2.2 x, if_neg hx2]
      simp

theorem tabulates_foldl_incr (xs : List Int) : ∀ (m : FreqMap) (L : List Int), Tabulates m L →
    L.length + xs.length < 2147483648 →
    Tabulates (xs.foldl (fun m x => mapAdd m x 1) m) (L ++ xs) := by
  induction xs with
  | nil =>
    intro m L h _
    simpa using h
  | cons x rest ih =>
    intro m L h hlen
    have hc : L.count x ≤ L.length := List.count_le_length x L
    simp only [List.length_cons] at hlen
    have h1 : Tabulates (mapAdd m x 1) (L ++ List.replicate (1 : Int).toNat x) :=
      tabulates_mapAdd x 1 h (by omega) (by omega)
    have h2 : L ++ List.replicate (1 : Int).toNat x = L ++ [x] := by
      simp [List.replicate]
    rw [h2] at h1
    have h3 := ih (mapAdd m x 1) (L ++ [x]) h1 (by simp; omega)
    simpa using h3

theorem mem_expandMap (m : FreqMap) (x : Int) (h : x ∈ expandMap m) : x ∈ mapKeys m := by
  unfold expandMap at h
  rcases List.mem_flatMap.1 h with ⟨p, hp, hx⟩
  have := (List.mem_replicate.1 hx).2
  exact List.mem_map.2 ⟨p, hp, this.symm⟩

theorem count_expandMap (m : FreqMap) (hs : (mapKeys m).Sorted (· < ·)) (k : Int) :
    (expandMap m).count k = (mapGet m k).toNat := by
  induction m with
  | nil => simp [expandMap, mapGet]
  | cons p rest ih =>
    obtain ⟨k0, c⟩ := p
    have hs0 : (∀ b ∈ mapKeys rest, k0 < b) ∧ (mapKeys rest).Sorted (· < ·) := by
      simpa [mapKeys] using hs
    have he : expandMap ((k0, c) :: rest) = List.replicate c.toNat k0 ++ expandMap rest := by
      simp [expandMap]
    rw [he, List.count_append, List.count_replicate, ih hs0.2]
    by_cases hk : k = k0
    · subst hk
      have hnot : k ∉ mapKeys rest := fun hmem => by
        have := hs0.1 k hmem
        omega
      simp [mapGet, mapGet_of_not_mem rest k hnot]
    · have hk2 : ¬ ((k0 == k) = true) := by
        simpa using (fun hkx : k0 = k => hk hkx.symm)
      simp [mapGet, hk, hk2]

theorem expandMap_perm {m : FreqMap} {L : List Int} (h : Tabulates m L) :
    (expandMap m).Perm L := by
  rw [List.perm_iff_count]
  intro k
  rw [count_expandMap m h.1 k, h.2.2 k]
  simp

theorem tabulates_foldl_add (es : FreqMap) : ∀ (acc : FreqMap) (L : List Int), Tabulates acc L →
    (∀ p ∈ es, 0 < p.2) → L.length + (expandMap es).length < 2147483648 →
    Tabulates (es.foldl (fun m pair => mapAdd m pair.1 pair.2) acc) (L ++ expandMap es) := by
  induction es with
  | nil =>
    intro acc L h _ _
    simpa [expandMap] using h
  | cons p rest ih =>
    intro acc L h hpos hlen
    have he : expandMap (p :: rest) = List.replicate p.2.toNat p.1 ++ expandMap rest := by
      simp [expandMap]
    rw [he] at hlen ⊢
    simp only [List.length_append, List.length_replicate] at hlen
    have hp : 0 < p.2 := hpos p (List.mem_cons_self _ _)
    have hc : L.count p.1 ≤ L.length := List.count_le_length p.1 L
    have h1 : Tabulates (mapAdd acc p.1 p.2) (L ++ List.replicate p.2.toNat p.1) :=
      tabulates_mapAdd p.1 p.2 h hp (by omega)
    have h2 := ih (mapAdd acc p.1 p.2) (L ++ List.replicate p.2.toNat p.1) h1
      (fun q hq => hpos q (List.mem_cons_of_mem _ hq))
      (by simp only [List.length_append, List.length_replicate]; omega)
    simpa [List.append_assoc] using h2

theorem tabulates_merge {acc freq : FreqMap} {L1 L2 : List Int} (h1 : Tabulates acc L1)
    (h2 : Tabulates freq L2) (hlen : L1.length + L2.length < 2147483648) :
    Tabulates (freq.foldl (fun m pair => mapAdd m pair.1 pair.2) acc) (L1 ++ L2) := by
  have hp : (expandMap freq).Perm L2 := expandMap_perm h2
  have h3 := tabulates_foldl_add freq acc L1 h1 (fun p hpm => (tabulates_pos h2 p hpm).2)
    (by rw [hp.length_eq]; exact hlen)
  exact tabulates_perm h3 (List.Perm.append_left L1 hp)

theorem flatten_uniform_segments (A : List Int) (s : Nat) (j : Nat) :
    ((List.range j).map (fun i => (A.drop (i * s)).take s)).flatten = A.take (j * s) := by
  induction j with
  | zero => simp
  | succ j ih =>
    rw [List.range_succ, List.map_append, List.flatten_append, ih, Nat.succ_mul, List.take_add]
    simp

theorem flatten_segments (A : List Int) (w : Nat) (hw : 1 ≤ w) :
    ((List.range w).map (fun i => segment A w i)).flatten = A := by
  obtain ⟨k, rfl⟩ : ∃ k, w = k + 1 := ⟨w - 1, by omega⟩
  have hmul : k * (A.length / (k + 1)) ≤ A.length := by
    calc k * (A.length / (k + 1)) ≤ (k + 1) * (A.length / (k + 1)) :=
          Nat.mul_le_mul_right _ (Nat.le_succ k)
      _ ≤ A.length := Nat.mul_div_le A.length (k + 1)
  have hfront : (List.range k).map (fun i => segment A (k + 1) i)
      = (List.range k).map (fun i => (A.drop (i * (A.length / (k + 1)))).take (A.length / (k + 1))) := by
    apply List.map_congr_left
    intro i hi
    have hik : i ≠ k := by
      have := List.mem_range.1 hi
      omega
    simp [segment, segmentBounds, hik]
  have hlast : segment A (k + 1) k = A.drop (k * (A.length / (k + 1))) := by
    simp only [segment, segmentBounds, Nat.add_sub_cancel, if_true]
    apply List.take_of_length_le
    simp
  rw [List.range_succ, List.map_append, List.flatten_append, hfront, flatten_uniform_segments]
  simp [hlast]

theorem countFrequenciesInRange_segment (A : List Int) (w i : Nat) :
    countFrequenciesInRange A (segmentBounds A.length w i).1 (segmentBounds A.length w i).2
      = (segment A w i).foldl (fun m x => mapAdd m x 1) [] := rfl

theorem tabulates_foldl_merge (segs : List (List Int)) : ∀ (acc : FreqMap) (L : List Int),
    Tabulates acc L → L.length + segs.flatten.length < 2147483648 →
    Tabulates ((segs.map (fun seg => seg.foldl (fun m x => mapAdd m x 1) [])).foldl
      (fun acc freq => freq.foldl (fun m pair => mapAdd m pair.1 pair.2) acc) acc)
      (L ++ segs.flatten) := by
  induction segs with
  | nil =>
    intro acc L h _
    simpa using h
  | cons seg rest ih =>
    intro acc L h hlen
    simp only [List.flatten_cons, List.length_append] at hlen
    have h1 : Tabulates (seg.foldl (fun m x => mapAdd m x 1) []) seg := by
      have := tabulates_foldl_incr seg [] [] tabulates_nil (by simp; omega)
      simpa using this
    have h2 := tabulates_merge h h1 (by omega)
    have h3 := ih _ (L ++ seg) h2 (by simp only [List.length_append]; omega)
    simpa [List.append_assoc] using h3

theorem tabulates_mergedTable (A : List Int) (w : Nat) (hw : 1 ≤ w)
    (hlen : A.length < 2147483648) : Tabulates (mergedTable A w) A := by
  have h := tabulates_foldl_merge ((List.range w).map (fun i => segment A w i)) [] []
    tabulates_nil (by rw [flatten_segments A w hw]; simpa using hlen)
  rw [flatten_segments A w hw] at h
  simpa [mergedTable, mergeMaps, countFrequenciesInRange_segment, List.map_map, Function.comp_def]
    using h

theorem foldl_max_ge_init (l : FreqMap) : ∀ a : Int,
    a ≤ l.foldl (fun mx pair => max mx pair.2) a := by
  induction l with
  | nil => intro a; simp
  | cons p rest ih =>
    intro a
    simp only [List.foldl_cons]
    exact le_trans (le_max_left a p.2) (ih (max a p.2))

theorem foldl_max_ge_mem (l : FreqMap) : ∀ (a : Int) (p : Int × Int), p ∈ l →
    p.2 ≤ l.foldl (fun mx pair => max mx pair.2) a := by
  induction l with
  | nil => intro a p hp; simp at hp
  | cons q rest ih =>
    intro a p hp
    simp only [List.foldl_cons]
    rcases List.mem_cons.1 hp with h | h
    · subst h
      exact le_trans (le_max_right a p.2) (foldl_max_ge_init rest (max a p.2))
    · exact ih (max a q.2) p h

theorem foldl_max_attained (l : FreqMap) : ∀ a : Int,
    l.foldl (fun mx pair => max mx pair.2) a = a ∨
      ∃ p ∈ l, p.2 = l.foldl (fun mx pair => max mx pair.2) a := by
  induction l with
  | nil => intro a; simp
  | cons q rest ih =>
    intro a
    simp only [List.foldl_cons]
    rcases ih (max a q.2) with h | ⟨p, hp, h⟩
    · rcases max_choice a q.2 with hm | hm
      · left
        rw [h, hm]
      · right
        exact ⟨q, List.mem_cons_self _ _, by rw [h, hm]⟩
    · right
      exact ⟨p, List.mem_cons_of_mem _ hp, h⟩

theorem findMode_sorted (m : FreqMap) (hs : (mapKeys m).Sorted (· < ·)) :
    (findMode m).Sorted (· < ·) := by
  unfold findMode
  exact List.Pairwise.sublist (List.Sublist.map _ (List.filter_sublist _)) hs

theorem findMode_tabulates {m : FreqMap} {L : List Int} (h : Tabulates m L) (v : Int) :
    v ∈ findMode m ↔ (v ∈ L ∧ ∀ u, L.count u ≤ L.count v) := by
  have hmem : v ∈ findMode m ↔
      ∃ p ∈ m, p.2 = m.foldl (fun mx pair => max mx pair.2) 0 ∧ p.1 = v := by
    simp [findMode, List.mem_map, List.mem_filter, and_assoc]
  rw [hmem]
  constructor
  · rintro ⟨p, hp, hmax, rfl⟩
    have hp2 := tabulates_pos h p hp
    refine ⟨(h.2.1 p.1).1 (List.mem_map.2 ⟨p, hp, rfl⟩), ?_⟩
    intro u
    by_cases hu : u ∈ L
    · obtain ⟨q, hq, rfl⟩ := List.mem_map.1 ((h.2.1 u).2 hu)
      have hq2 := tabulates_pos h q hq
      have hle := foldl_max_ge_mem m 0 q hq
      omega
    · rw [List.count_eq_zero.2 hu]
      exact Nat.zero_le _
  · rintro ⟨hv, hall⟩
    obtain ⟨p, hp, rfl⟩ := List.mem_map.1 ((h.2.1 v).2 hv)
    refine ⟨p, hp, ?_, rfl⟩
    have hp2 := tabulates_pos h p hp
    have hle := foldl_max_ge_mem m 0 p hp
    rcases foldl_max_attained m 0 with h0 | ⟨q, hq, hqmax⟩
    · omega
    · have hq2 := tabulates_pos h q hq
      have := hall q.1
      omega

theorem findMedian_tabulates {m : FreqMap} {L : List Int} (h : Tabulates m L) (hL : L ≠ [])
    (hlen : L.length < 2147483648) (s : List Int) (hs : s.Sorted (· ≤ ·)) (hp : s.Perm L) :
    findMedian m L.length = some (medianOfSorted s) := by
  have hsort : (expandMap m).insertionSort (· ≤ ·) = s := by
    apply List.eq_of_perm_of_sorted (r := (· ≤ ·))
    · exact (List.perm_insertionSort _ _).trans ((expandMap_perm h).trans hp.symm)
    · exact List.sorted_insertionSort _ _
    · exact hs
  have hsl : s.length = L.length := hp.length_eq
  have hpos : 0 < L.length := List.length_pos.2 hL
  unfold findMedian medianOfSorted
  simp only [hsort, hsl]
  by_cases hodd : L.length % 2 = 1
  · have hi : L.length / 2 < s.length := by omega
    simp only [hodd, if_true, List.getElem?_eq_getElem hi, List.getD_eq_getElem s 0 hi]
  · have hi : L.length / 2 < s.length := by omega
    have hidx : (L.length / 2 + 18446744073709551616 - 1) % 18446744073709551616
        = L.length / 2 - 1 := by omega
    have hi2 : L.length / 2 - 1 < s.length := by omega
    simp only [hodd, if_false, hidx, List.getElem?_eq_getElem hi, List.getElem?_eq_getElem hi2,
      List.getD_eq_getElem s 0 hi, List.getD_eq_getElem s 0 hi2]
    rw [add_comm]

theorem processArray_eq (A : List Int) (w : Nat) (hA : A ≠ []) (hlen : A.length < 2147483648)
    (hw : 1 ≤ w) :
    processArray A w = some { mode := findMode (mergedTable A w),
                              median := medianOfSorted (A.insertionSort (· ≤ ·)) } := by
  have ht := tabulates_mergedTable A w hw hlen
  have hm := findMedian_tabulates ht hA hlen (A.insertionSort (· ≤ ·))
    (List.sorted_insertionSort _ _) (List.perm_insertionSort _ _)
  have hw0 : w ≠ 0 := by omega
  simp [processArray, hw0, hm]

/-! ## Claims about the frequency aggregator -/

theorem delivered_data (l : List Byte) (rest : Socket) (hl : l ≠ []) :
    delivered (RecvEvent.data l :: rest) = l ++ delivered rest := by
  cases l with
  | nil => exact absurd rfl hl
  | cons b bs => simp [delivered]

theorem recv_delivered (sock : Socket) (len : Nat) (hlen : 0 < len)
    (hd : delivered sock ≠ []) :
    ∃ (k : Nat) (chunk : List Byte) (sock1 : Socket),
      recv sock len = ((k : Int), chunk, sock1) ∧ 0 < k ∧ k ≤ len ∧
        k ≤ (delivered sock).length ∧ chunk = (delivered sock).take k ∧
        delivered sock1 = (delivered sock).drop k := by
  cases sock with
  | nil => simp [delivered] at hd
  | cons ev rest =>
    cases ev with
    | eof => simp [delivered] at hd
    | err => simp [delivered] at hd
    | data l =>
      have hl : l ≠ [] := by
        intro h
        subst h
        simp [delivered] at hd
      have hlpos : 0 < l.length := List.length_pos.2 hl
      rw [delivered_data l rest hl]
      by_cases hle : l.length ≤ len
      · refine ⟨l.length, l, rest, ?_, hlpos, hle, ?_, ?_, ?_⟩
        · simp [recv, hle]
        · simp
        · simp
        · simp
      · have hlt : len < l.length := by omega
        refine ⟨len, l.take len, RecvEvent.data (l.drop len) :: rest, ?_, hlen, le_refl _, ?_, ?_, ?_⟩
        · simp [recv, hle]
        · simp only [List.length_append]
          omega
        · rw [List.take_append_of_le_length (le_of_lt hlt)]
        · have hne : l.drop len ≠ [] := by
            intro h
            have := congrArg List.length h
            simp only [List.length_drop, List.length_nil] at this
            omega
          rw [delivered_data _ rest hne, List.drop_append_of_le_length (le_of_lt hlt)]

theorem receive_exact_loop_delivered (length : Nat) : ∀ (bound : Nat) (sock : Socket)
    (buffer : List Byte), buffer.length ≤ length → length - buffer.length ≤ bound →
    length - buffer.length ≤ (delivered sock).length →
    ∃ sock1, receive_exact_loop length bound sock buffer
        = ((length : Int), buffer ++ (delivered sock).take (length - buffer.length), sock1) ∧
      delivered sock1 = (delivered sock).drop (length - buffer.length) := by
  intro bound
  induction bound with
  | zero =>
    intro sock buffer h1 h2 _
    have h0 : length - buffer.length = 0 := by omega
    have hbl : buffer.length = length := by omega
    refine ⟨sock, ?_, ?_⟩
    · simp [receive_exact_loop, h0, hbl]
    · simp [h0]
  | succ bound ih =>
    intro sock buffer h1 h2 h3
    by_cases hlt : buffer.length < length
    · have hd : delivered sock ≠ [] := by
        intro h
        rw [h] at h3
        simp only [List.length_nil] at h3
        omega
      obtain ⟨k, chunk, sock1, hrecv, hk0, hk1, hk2, hchunk, hdel⟩ :=
        recv_delivered sock (length - buffer.length) (by omega) hd
      have hcl : chunk.length = k := by
        rw [hchunk, List.length_take]
        omega
      have hkpos : ¬ ((k : Int) ≤ 0) := by omega
      obtain ⟨sock2, hloop, hdel2⟩ := ih sock1 (buffer ++ chunk)
        (by rw [List.length_append, hcl]; omega)
        (by rw [List.length_append, hcl]; omega)
        (by rw [List.length_append, hcl, hdel, List.length_drop]; omega)
      refine ⟨sock2, ?_, ?_⟩
      · simp only [receive_exact_loop, if_pos hlt, hrecv, if_neg hkpos]
        rw [hloop, hdel, hchunk, List.length_append, List.length_take,
          Nat.min_eq_left hk2, List.append_assoc]
        have hsplit : length - buffer.length = k + (length - (buffer.length + k)) := by omega
        conv_rhs => rw [hsplit, List.take_add]
      · rw [hdel2, hdel, List.drop_drop, List.length_append, hcl]
        congr 1
        omega
    · have h0 : length - buffer.length = 0 := by omega
      have hbl : buffer.length = length := by omega
      refine ⟨sock, ?_, ?_⟩
      · simp [receive_exact_loop, hlt, h0, hbl]
      · simp [h0]

theorem receive_exact_delivered (sock : Socket) (bytes tail : List Byte)
    (h : delivered sock = bytes ++ tail) :
    ∃ sock1, receive_exact sock bytes.length = ((bytes.length : Int), bytes, sock1) ∧
      delivered sock1 = tail := by
  obtain ⟨sock1, h1, h2⟩ := receive_exact_loop_delivered bytes.length bytes.length sock []
    (Nat.zero_le _) (by simp) (by simp [h])
  refine ⟨sock1, ?_, ?_⟩
  · simpa [receive_exact, h] using h1
  · simpa [h] using h2

theorem length_htonl (x : Nat) : (htonl x).length = 4 := rfl

theorem ntohl_htonl (x : Nat) : ntohl (htonl x) = x % 4294967296 := by
  simp only [ntohl, htonl, List.foldl_cons, List.foldl_nil, Fin.ofNat, Nat.zero_mul, Nat.zero_add]
  omega

theorem toInt32_toUInt32 (x : Int) (hx : isInt32 x) : toInt32 (toUInt32 x) = x := by
  unfold isInt32 at hx
  unfold toInt32 toUInt32
  split_ifs <;> omega

theorem length_encodeArray (array : List Int) : (encodeArray array).length = array.length * 4 := by
  induction array with
  | nil => rfl
  | cons x rest ih =>
    have : encodeArray (x :: rest) = htonl (toUInt32 x) ++ encodeArray rest := by
      simp [encodeArray]
    rw [this, List.length_append, ih, length_htonl, List.length_cons]
    omega

theorem decodeArray_encodeArray (array : List Int) (h : ∀ x ∈ array, isInt32 x) :
    decodeArray array.length (encodeArray array) = array := by
  induction array with
  | nil => rfl
  | cons x rest ih =>
    have he : encodeArray (x :: rest) = htonl (toUInt32 x) ++ encodeArray rest := by
      simp [encodeArray]
    have hx : isInt32 x := h x (List.mem_cons_self _ _)
    have hu : toUInt32 x % 4294967296 = toUInt32 x := by
      unfold toUInt32
      omega
    have h4 : (htonl (toUInt32 x)).length = 4 := rfl
    simp only [List.length_cons, decodeArray]
    rw [he, List.take_left' h4, List.drop_left' h4, ntohl_htonl]
    have hw : toInt32 (toUInt32 x % 4294967296) = x := by
      rw [hu]
      exact toInt32_toUInt32 x hx
    rw [hw, ih (fun y hy => h y (List.mem_cons_of_mem _ hy))]

/-! ## Session: lemmas -/

theorem receive_exact_one (sock : Socket) (b : Byte) (tail : List Byte)
    (h : delivered sock = b :: tail) :
    ∃ sock1, receive_exact sock 1 = (1, [b], sock1) ∧ delivered sock1 = tail := by
  have := receive_exact_delivered sock [b] tail (by simpa using h)
  simpa using this

theorem receive_exact_four (sock : Socket) (bytes tail : List Byte) (hl : bytes.length = 4)
    (h : delivered sock = bytes ++ tail) :
    ∃ sock1, receive_exact sock 4 = (4, bytes, sock1) ∧ delivered sock1 = tail := by
  have := receive_exact_delivered sock bytes tail h
  rw [hl] at this
  simpa using this

theorem handleMessage_compute (st : Session) (sock : Socket) (tail : List Byte)
    (h : delivered sock = 0x02 :: tail) :
    ∃ sock1, delivered sock1 = tail ∧
      handleMessage st sock =
        if st.data_received then
          match computeResults st.arrays st.threadCounts with
          | none => Outcome.crashed [0x00]
          | some results =>
            Outcome.proceed { st with results := results, computation_done := true } [0x00] sock1
        else Outcome.proceed st [0x01] sock1 := by
  obtain ⟨sock1, h1, h2⟩ := receive_exact_one sock 0x02 tail h
  refine ⟨sock1, h2, ?_⟩
  have v21 : ¬ ((2 : Byte) = 1) := by decide
  unfold handleMessage
  simp only [h1]
  cases hd : st.data_received <;> simp [v21]

theorem handleMessage_fetch (st : Session) (sock : Socket) (tail : List Byte)
    (h : delivered sock = 0x03 :: tail) :
    ∃ sock1, delivered sock1 = tail ∧
      handleMessage st sock =
        if st.computation_done then Outcome.proceed st ([0x00] ++ sendResults st.results) sock1
        else if st.data_received then Outcome.proceed st [0x01] sock1
        else Outcome.proceed st [0x02] sock1 := by
  obtain ⟨sock1, h1, h2⟩ := receive_exact_one sock 0x03 tail h
  refine ⟨sock1, h2, ?_⟩
  unfold handleMessage
  simp only [h1]
  have v31 : ¬ ((3 : Byte) = 1) := by decide
  have v32 : ¬ ((3 : Byte) = 2) := by decide
  cases hc : st.computation_done <;> cases hd : st.data_received <;> simp [v31, v32]

theorem handleMessage_unknown (st : Session) (sock : Socket) (b : Byte) (tail : List Byte)
    (h : delivered sock = b :: tail) (h1 : b ≠ 0x01) (h2 : b ≠ 0x02) (h3 : b ≠ 0x03) :
    handleMessage st sock = Outcome.closed st [] := by
  obtain ⟨sock1, hr, _⟩ := receive_exact_one sock b tail h
  unfold handleMessage
  simp [hr, h1, h2, h3]

theorem handleMessage_submit (st : Session) (sock : Socket)
    (sizeBytes threadBytes tail : List Byte) (hs : sizeBytes.length = 4)
    (ht : threadBytes.length = 4)
    (h : delivered sock = 0x01 :: (sizeBytes ++ (threadBytes ++ tail))) :
    ∃ sock3, delivered sock3 = tail ∧
      handleMessage st sock =
        if ntohl sizeBytes > MAX_ARRAY_SIZE ∨ ntohl sizeBytes = 0 then Outcome.closed st []
        else
          match receive_exact sock3 (ntohl sizeBytes * 4) with
          | (n3, arrayBytes, sock4) =>
            if n3 ≤ 0 then Outcome.exited []
            else
              Outcome.proceed
                { st with
                  arrays := st.arrays ++ [decodeArray (ntohl sizeBytes) arrayBytes]
                  threadCounts := st.threadCounts ++ [ntohl threadBytes]
                  data_received := true }
                [] sock4 := by
  obtain ⟨sock1, h1, d1⟩ := receive_exact_one sock 0x01 _ h
  obtain ⟨sock2, h2, d2⟩ := receive_exact_four sock1 sizeBytes _ hs d1
  obtain ⟨sock3, h3, d3⟩ := receive_exact_four sock2 threadBytes _ ht d2
  refine ⟨sock3, d3, ?_⟩
  unfold handleMessage
  simp only [h1, h2, h3]
  simp [ntohl]

theorem computeResults_some : ∀ (arrays : List (List Int)) (threadCounts : List Nat)
    (results : List Result), computeResults arrays threadCounts = some results →
    results.length = arrays.length ∧
      ∀ i, i < arrays.length → ∃ a t r, arrays[i]? = some a ∧ threadCounts[i]? = some t ∧
        results[i]? = some r ∧ processArray a t = some r := by
  intro arrays
  induction arrays with
  | nil =>
    intro threadCounts results h
    simp only [computeResults, Option.some.injEq] at h
    subst h
    simp
  | cons a rest ih =>
    intro threadCounts results h
    cases threadCounts with
    | nil => simp [computeResults] at h
    | cons t ts =>
      simp only [computeResults] at h
      cases hp : processArray a t with
      | none => simp [hp] at h
      | some r =>
        cases hc : computeResults rest ts with
        | none => simp [hp, hc] at h
        | some rs =>
          simp only [hp, hc, Option.some.injEq] at h
          subst h
          obtain ⟨hl, hi⟩ := ih ts rs hc
          refine ⟨by simp [hl], ?_⟩
          intro i hlt
          cases i with
          | zero => exact ⟨a, t, r, by simp, by simp, by simp, hp⟩
          | succ i =>
            obtain ⟨a1, t1, r1, h1, h2, h3, h4⟩ := ih ts rs hc |>.2 i (by simpa using hlt)
            exact ⟨a1, t1, r1, by simpa using h1, by simpa using h2, by simpa using h3, h4⟩

theorem processArray_isSome (A : List Int) (w : Nat) (hA : 1 ≤ A.length)
    (hlen : A.length ≤ MAX_ARRAY_SIZE) (hw : 1 ≤ w) : ∃ r, processArray A w = some r := by
  have hne : A ≠ [] := by
    intro h
    subst h
    simp at hA
  have h2 : A.length < 2147483648 := by
    unfold MAX_ARRAY_SIZE at hlen
    omega
  exact ⟨_, processArray_eq A w hne h2 hw⟩

theorem computeResults_total : ∀ (arrays : List (List Int)) (threadCounts : List Nat),
    arrays.length = threadCounts.length →
    (∀ a ∈ arrays, 1 ≤ a.length ∧ a.length ≤ MAX_ARRAY_SIZE) → (∀ t ∈ threadCounts, 1 ≤ t) →
    ∃ results, computeResults arrays threadCounts = some results := by
  intro arrays
  induction arrays with
  | nil =>
    intro threadCounts _ _ _
    exact ⟨[], rfl⟩
  | cons a rest ih =>
    intro threadCounts hl ha ht
    cases threadCounts with
    | nil => simp at hl
    | cons t ts =>
      obtain ⟨r, hr⟩ := processArray_isSome a t (ha a (List.mem_cons_self _ _)).1
        (ha a (List.mem_cons_self _ _)).2 (ht t (List.mem_cons_self _ _))
      obtain ⟨rs, hrs⟩ := ih ts (by simpa using hl)
        (fun x hx => ha x (List.mem_cons_of_mem _ hx))
        (fun x hx => ht x (List.mem_cons_of_mem _ hx))
      exact ⟨r :: rs, by simp [computeResults, hr, hrs]⟩

theorem handleMessage_proceed (st st1 : Session) (sock sock1 : Socket) (sent : List Byte)
    (h : handleMessage st sock = Outcome.proceed st1 sent sock1) :
    (∃ a t, st1 = { st with arrays := st.arrays ++ [a], threadCounts := st.threadCounts ++ [t],
                            data_received := true }) ∨
    (st.data_received = true ∧ ∃ results, computeResults st.arrays st.threadCounts = some results ∧
      st1 = { st with results := results, computation_done := true }) ∨
    st1 = st := by
  unfold handleMessage at h
  generalize receive_exact sock 1 = r0 at h
  obtain ⟨n0, typeBytes, s1⟩ := r0
  simp only at h
  generalize receive_exact s1 4 = r1 at h
  obtain ⟨n1, sizeBytes, s2⟩ := r1
  simp only at h
  generalize receive_exact s2 4 = r2 at h
  obtain ⟨n2, threadBytes, s3⟩ := r2
  simp only at h
  generalize receive_exact s3 (ntohl sizeBytes * 4) = r3 at h
  obtain ⟨n3, arrayBytes, s4⟩ := r3
  simp only at h
  split_ifs at h with c0 c1 c2 c3 c4 c5 c6 c7 c8 c9
  all_goals first
    | (cases h; done)
    | (cases h; exact Or.inr (Or.inr rfl))
    | (cases h; exact Or.inl ⟨_, _, rfl⟩)
    | skip
  cases hcr : computeResults st.arrays st.threadCounts with
  | none => simp [hcr] at h
  | some rs =>
    simp only [hcr, Outcome.proceed.injEq] at h
    exact Or.inr (Or.inl ⟨by assumption, rs, rfl, h.1.symm⟩)

theorem sessionLoop_closed (running : Nat) (st : Session) (sock : Socket) (sent : List Byte)
    (h : handleMessage st sock = Outcome.closed st []) :
    sessionLoop (running + 1) st sock sent = Outcome.closed st sent := by
  simp [sessionLoop, h]

theorem reachable_submit_compute_submit :
    Reachable { arrays := [[7], [8]], threadCounts := [1, 1], data_received := true, results := [{ mode := [7], median := 7 }], computation_done := true } := by
  have r1 : Reachable { arrays := [[7]], threadCounts := [1], data_received := true, results := [], computation_done := false } :=
    Reachable.step Session.initial _ [RecvEvent.data (submitFrame [7] 1)] [] [] Reachable.initial
      (by decide)
  have r2 : Reachable { arrays := [[7]], threadCounts := [1], data_received := true, results := [{ mode := [7], median := 7 }], computation_done := true } :=
    Reachable.step _ _ [RecvEvent.data [0x02]] [] [0x00] r1 (by decide!)
  exact Reachable.step _ _ [RecvEvent.data (submitFrame [8] 1)] [] [] r2 (by decide)

/-! ## Claims about the session -/

/-- Claim C4: in a session state in which `computation_done` implies
`data_received` (every state the session can be in), a FetchResults message
(`0x03`) is answered with a status byte that is `0x00` exactly when
`computation_done` is true, `0x01` exactly when `data_received` is true and
`computation_done` is false, and `0x02` exactly when `data_received` is
false; the result payload follows only for status `0x00`, and the session
state is unchanged. -/
theorem fetch_status (st : Session) (sock : Socket) (tail : List Byte)
    (hinv : st.computation_done = true → st.data_received = true)
    (h : delivered sock = 0x03 :: tail) :
    ∃ (status : Byte) (payload : List Byte) (sock1 : Socket),
      handleMessage st sock = Outcome.proceed st (status :: payload) sock1 ∧
      delivered sock1 = tail ∧
      (status = 0x00 ↔ st.computation_done = true) ∧
      (status = 0x01 ↔ (st.data_received = true ∧ st.computation_done = false)) ∧
      (status = 0x02 ↔ st.data_received = false) ∧
      (status = 0x00 → payload = sendResults st.results) ∧
      (status ≠ 0x00 → payload = []) := by
  obtain ⟨sock1, hdel, hm⟩ := handleMessage_fetch st sock tail h
  cases hc : st.computation_done with
  | true =>
    have hd := hinv hc
    refine ⟨0x00, sendResults st.results, sock1, ?_, hdel, ?_, ?_, ?_, ?_, ?_⟩
    · rw [hm]; simp [hc]
    · simp
    · simp
    · simp [hd]
    · simp
    · simp
  | false =>
    cases hd : st.data_received with
    | true =>
      refine ⟨0x01, [], sock1, ?_, hdel, ?_, ?_, ?_, ?_, ?_⟩
      · rw [hm]; simp [hc, hd]
      · simp
      · simp
      · simp
      · simp
      · simp
    | false =>
      refine ⟨0x02, [], sock1, ?_, hdel, ?_, ?_, ?_, ?_, ?_⟩
      · rw [hm]; simp [hc, hd]
      · simp
      · simp
      · simp
      · simp
      · simp

/-- Witness of `fetch_status` (claim C4): FetchResults in the state reached
after submitting `[7]` with one worker, before any Compute; the reply is the
single byte `0x01`. -/
theorem fetch_status_witness :
    ((false = true → true = true) ∧ delivered [RecvEvent.data [0x03]] = 0x03 :: []) ∧
    handleMessage { arrays := [[7]], threadCounts := [1], data_received := true, results := [], computation_done := false } [RecvEvent.data [0x03]]
      = Outcome.proceed { arrays := [[7]], threadCounts := [1], data_received := true, results := [], computation_done := false } [0x01] [] ∧
    ∃ (status : Byte) (payload : List Byte) (sock1 : Socket),
      handleMessage { arrays := [[7]], threadCounts := [1], data_received := true, results := [], computation_done := false } [RecvEvent.data [0x03]]
        = Outcome.proceed { arrays := [[7]], threadCounts := [1], data_received := true, results := [], computation_done := false } (status :: payload) sock1 ∧
      delivered sock1 = [] ∧
      (status = 0x00 ↔ false = true) ∧
      (status = 0x01 ↔ (true = true ∧ false = false)) ∧
      (status = 0x02 ↔ true = false) ∧
      (status = 0x00 → payload = sendResults []) ∧
      (status ≠ 0x00 → payload = []) :=
  ⟨by decide, by decide,
    fetch_status { arrays := [[7]], threadCounts := [1], data_received := true, results := [], computation_done := false } [RecvEvent.data [0x03]] []
      (by decide) (by decide)⟩

/-- Claim C5: when the socket delivers a SubmitArray frame (`0x01`, the array
length `n` with `1 ≤ n ≤ 100000`, the worker count, then the `n` encoded
32-bit integers), in whatever chunks, the handler consumes exactly the frame
(what the socket delivers afterwards is what followed the frame), appends the
decoded array and its worker count at the end of the lists, sets
`data_received`, sends nothing, and leaves `results` and `computation_done`
unchanged. -/
theorem submit_array (st : Session) (sock : Socket) (array : List Int) (num_threads : Nat)
    (tail : List Byte) (hn1 : 1 ≤ array.length) (hn2 : array.length ≤ 100000)
    (hint : ∀ x ∈ array, isInt32 x) (hw : num_threads < 4294967296)
    (h : delivered sock = submitFrame array num_threads ++ tail) :
    ∃ sock1, handleMessage st sock =
        Outcome.proceed { arrays := st.arrays ++ [array], threadCounts := st.threadCounts ++ [num_threads], data_received := true, results := st.results, computation_done := st.computation_done } [] sock1 ∧
      delivered sock1 = tail := by
  have hsize : ntohl (htonl array.length) = array.length := by
    rw [ntohl_htonl]
    omega
  have hthreads : ntohl (htonl num_threads) = num_threads := by
    rw [ntohl_htonl]
    omega
  have hframe : delivered sock = 0x01 :: (htonl array.length ++ (htonl num_threads ++
      (encodeArray array ++ tail))) := by
    rw [h]
    simp [submitFrame]
  obtain ⟨sock3, d3, hm⟩ := handleMessage_submit st sock (htonl array.length)
    (htonl num_threads) (encodeArray array ++ tail) rfl rfl hframe
  obtain ⟨sock4, h4, d4⟩ := receive_exact_delivered sock3 (encodeArray array) tail d3
  rw [length_encodeArray] at h4
  refine ⟨sock4, ?_, d4⟩
  have hbad : ¬ (array.length > MAX_ARRAY_SIZE ∨ array.length = 0) := by
    unfold MAX_ARRAY_SIZE
    omega
  have hpos : ¬ (((array.length * 4 : Nat) : Int) ≤ 0) := by omega
  rw [hm, hsize, hthreads, if_neg hbad, h4]
  simp only [if_neg hpos, decodeArray_encodeArray array hint]

/-- Witness of `submit_array` (claim C5): the frame of the array `[3, -1]` with
one worker arrives in three chunks, followed by one more byte. -/
theorem submit_array_witness :
    (∀ x ∈ ([3, -1] : List Int), isInt32 x) ∧
    delivered [RecvEvent.data [1, 0, 0, 0, 2, 0, 0], RecvEvent.data [0, 1, 0, 0, 0, 3, 255, 255], RecvEvent.data [255, 255, 9]]
      = submitFrame [3, -1] 1 ++ [9] ∧
    ∃ sock1, handleMessage Session.initial
        [RecvEvent.data [1, 0, 0, 0, 2, 0, 0], RecvEvent.data [0, 1, 0, 0, 0, 3, 255, 255], RecvEvent.data [255, 255, 9]] =
        Outcome.proceed { arrays := Session.initial.arrays ++ [[3, -1]], threadCounts := Session.initial.threadCounts ++ [1], data_received := true, results := Session.initial.results, computation_done := Session.initial.computation_done } [] sock1 ∧
      delivered sock1 = [9] :=
  ⟨by decide, by decide,
    submit_array Session.initial
      [RecvEvent.data [1, 0, 0, 0, 2, 0, 0], RecvEvent.data [0, 1, 0, 0, 0, 3, 255, 255], RecvEvent.data [255, 255, 9]]
      [3, -1] 1 [9] (by decide) (by decide) (by decide) (by decide) (by decide)⟩

/-- Claim C6: a protocol violation ends the session loop with nothing sent and
the session state unchanged.  This covers a SubmitArray frame whose array
length is `0` or greater than `100000` (the header is read, the body is not),
and a frame whose discriminator is not `0x01`, `0x02` or `0x03`. -/
theorem protocol_violation_closes (running : Nat) (st : Session) (sock : Socket)
    (sent : List Byte)
    (h : (∃ n w tail, n < 4294967296 ∧ (n = 0 ∨ 100000 < n) ∧
            delivered sock = [0x01] ++ htonl n ++ htonl w ++ tail) ∨
         (∃ b tail, b ≠ 0x01 ∧ b ≠ 0x02 ∧ b ≠ 0x03 ∧ delivered sock = b :: tail)) :
    handleMessage st sock = Outcome.closed st [] ∧
      sessionLoop (running + 1) st sock sent = Outcome.closed st sent := by
  have hm : handleMessage st sock = Outcome.closed st [] := by
    rcases h with ⟨n, w, tail, hn, hbad, hdel⟩ | ⟨b, tail, h1, h2, h3, hdel⟩
    · have hframe : delivered sock = 0x01 :: (htonl n ++ (htonl w ++ tail)) := by
        rw [hdel]
        simp
      obtain ⟨sock3, _, hm⟩ := handleMessage_submit st sock (htonl n) (htonl w) tail rfl rfl hframe
      have hsize : ntohl (htonl n) = n := by
        rw [ntohl_htonl]
        omega
      have hbad2 : ntohl (htonl n) > MAX_ARRAY_SIZE ∨ ntohl (htonl n) = 0 := by
        rw [hsize]
        unfold MAX_ARRAY_SIZE
        omega
      rw [hm, if_pos hbad2]
    · exact handleMessage_unknown st sock b tail hdel h1 h2 h3
  exact ⟨hm, sessionLoop_closed running st sock sent hm⟩

/-- Witness of `protocol_violation_closes` (claim C6) at a SubmitArray header
with array length `100001`, at one with array length `0`, and at the unknown
discriminator `0x09`. -/
theorem protocol_violation_closes_witness :
    (handleMessage Session.initial [RecvEvent.data ([0x01] ++ htonl 100001 ++ htonl 4)] = Outcome.closed Session.initial [] ∧
      sessionLoop (0 + 1) Session.initial [RecvEvent.data ([0x01] ++ htonl 100001 ++ htonl 4)] [] = Outcome.closed Session.initial []) ∧
    (handleMessage Session.initial [RecvEvent.data ([0x01] ++ htonl 0 ++ htonl 4)] = Outcome.closed Session.initial [] ∧
      sessionLoop (0 + 1) Session.initial [RecvEvent.data ([0x01] ++ htonl 0 ++ htonl 4)] [] = Outcome.closed Session.initial []) ∧
    (handleMessage Session.initial [RecvEvent.data [0x09]] = Outcome.closed Session.initial [] ∧
      sessionLoop (0 + 1) Session.initial [RecvEvent.data [0x09]] [] = Outcome.closed Session.initial []) :=
  ⟨protocol_violation_closes 0 Session.initial [RecvEvent.data ([0x01] ++ htonl 100001 ++ htonl 4)] []
      (Or.inl ⟨100001, 4, [], by decide, by decide, by decide⟩),
    protocol_violation_closes 0 Session.initial [RecvEvent.data ([0x01] ++ htonl 0 ++ htonl 4)] []
      (Or.inl ⟨0, 4, [], by decide, by decide, by decide⟩),
    protocol_violation_closes 0 Session.initial [RecvEvent.data [0x09]] []
      (Or.inr ⟨0x09, [], by decide, by decide, by decide, by decide⟩)⟩

/-- Claim C7, evaluated on the code: a SubmitArray frame with worker count `0`
is accepted like any other (the state afterwards stores the worker count
`0`), and the following Compute message sends the status `0x00` and then
calls `processArray` with `threadCount = 0`, whose division
`numbers.size() / threadCount` has a zero divisor. -/
theorem zero_worker_count_reaches_processArray :
    handleMessage Session.initial [RecvEvent.data (submitFrame [7] 0), RecvEvent.data [0x02]]
      = Outcome.proceed { arrays := [[7]], threadCounts := [0], data_received := true, results := [], computation_done := false } [] [RecvEvent.data [0x02]] ∧
    handleMessage { arrays := [[7]], threadCounts := [0], data_received := true, results := [], computation_done := false } [RecvEvent.data [0x02]]
      = Outcome.crashed [0x00] ∧
    processArray [7] 0 = none ∧
    handleClient 2 [RecvEvent.data (submitFrame [7] 0), RecvEvent.data [0x02]]
      = Outcome.crashed [0x00] := by
  refine ⟨by decide, by decide, by decide, by decide⟩

/-- Claim C8: in a session state with `data_received` and `computation_done`
both false, a Compute message (`0x02`) is answered with the single byte
`0x01`, the state is unchanged and the loop goes on; a FetchResults message
(`0x03`) handled next is answered with the single byte `0x02` (no payload),
again without a change of state. -/
theorem compute_without_data (st : Session) (sock : Socket) (tail : List Byte)
    (hd : st.data_received = false) (hc : st.computation_done = false)
    (h : delivered sock = 0x02 :: 0x03 :: tail) :
    ∃ sock1 sock2, handleMessage st sock = Outcome.proceed st [0x01] sock1 ∧
      handleMessage st sock1 = Outcome.proceed st [0x02] sock2 ∧ delivered sock2 = tail := by
  obtain ⟨sock1, d1, h1⟩ := handleMessage_compute st sock _ h
  obtain ⟨sock2, d2, h2⟩ := handleMessage_fetch st sock1 tail d1
  refine ⟨sock1, sock2, ?_, ?_, d2⟩
  · rw [h1]
    simp [hd]
  · rw [h2]
    simp [hd, hc]

/-- Witness of `compute_without_data` (claim C8) at the initial session state,
with Compute and FetchResults arriving in one chunk. -/
theorem compute_without_data_witness :
    (Session.initial.data_received = false ∧ Session.initial.computation_done = false ∧
      delivered [RecvEvent.data [0x02, 0x03]] = 0x02 :: 0x03 :: []) ∧
    sessionLoop 2 Session.initial [RecvEvent.data [0x02, 0x03]] []
      = Outcome.closed Session.initial [0x01, 0x02] ∧
    ∃ sock1 sock2, handleMessage Session.initial [RecvEvent.data [0x02, 0x03]]
        = Outcome.proceed Session.initial [0x01] sock1 ∧
      handleMessage Session.initial sock1 = Outcome.proceed Session.initial [0x02] sock2 ∧
      delivered sock2 = [] :=
  ⟨by decide, by decide,
    compute_without_data Session.initial [RecvEvent.data [0x02, 0x03]] [] rfl rfl (by decide)⟩

/-- Claim C10: when a Compute message handled in a state with `data_received`
true has produced a state (necessarily with `computation_done` true), a
second Compute message handled directly afterwards is answered with `0x00`
and leaves the session state, results included, exactly as it was. -/
theorem compute_idempotent (st st1 : Session) (sock sock1 : Socket) (sent tail1 tail : List Byte)
    (hd : st.data_received = true) (hfirst : delivered sock = 0x02 :: tail1)
    (h1 : handleMessage st sock = Outcome.proceed st1 sent sock1)
    (h2 : delivered sock1 = 0x02 :: tail) :
    st1.computation_done = true ∧
      ∃ sock2, handleMessage st1 sock1 = Outcome.proceed st1 [0x00] sock2 ∧
        delivered sock2 = tail := by
  obtain ⟨sockA, _, hA⟩ := handleMessage_compute st sock tail1 hfirst
  rw [hA, if_pos hd] at h1
  cases hrs : computeResults st.arrays st.threadCounts with
  | none => simp [hrs] at h1
  | some rs =>
    simp only [hrs, Outcome.proceed.injEq] at h1
    obtain ⟨hst, _, _⟩ := h1
    subst hst
    obtain ⟨sock2, d2, hB⟩ := handleMessage_compute _ sock1 tail h2
    refine ⟨rfl, sock2, ?_, d2⟩
    rw [hB]
    simp [hd, hrs]

/-- Witness of `compute_idempotent` (claim C10): two Compute messages after
the array `[5, 3, 5, 1, 3, 5]` has been submitted with 2 workers. -/
theorem compute_idempotent_witness :
    handleMessage { arrays := [[5, 3, 5, 1, 3, 5]], threadCounts := [2], data_received := true, results := [], computation_done := false } [RecvEvent.data [0x02], RecvEvent.data [0x02]]
      = Outcome.proceed { arrays := [[5, 3, 5, 1, 3, 5]], threadCounts := [2], data_received := true, results := [{ mode := [5], median := 4 }], computation_done := true } [0x00] [RecvEvent.data [0x02]] ∧
    (true = true ∧
      ∃ sock2, handleMessage { arrays := [[5, 3, 5, 1, 3, 5]], threadCounts := [2], data_received := true, results := [{ mode := [5], median := 4 }], computation_done := true } [RecvEvent.data [0x02]]
          = Outcome.proceed { arrays := [[5, 3, 5, 1, 3, 5]], threadCounts := [2], data_received := true, results := [{ mode := [5], median := 4 }], computation_done := true } [0x00] sock2 ∧
        delivered sock2 = []) :=
  ⟨by decide!,
    compute_idempotent { arrays := [[5, 3, 5, 1, 3, 5]], threadCounts := [2], data_received := true, results := [], computation_done := false }
      { arrays := [[5, 3, 5, 1, 3, 5]], threadCounts := [2], data_received := true, results := [{ mode := [5], median := 4 }], computation_done := true }
      [RecvEvent.data [0x02], RecvEvent.data [0x02]] [RecvEvent.data [0x02]] [0x00] [0x02] []
      rfl (by decide) (by decide!) (by decide)⟩

/-! ## Frequency tables: uniqueness -/

theorem table_eq_map_keys (m : FreqMap) (hs : (mapKeys m).Sorted (· < ·)) :
    m = (mapKeys m).map (fun k => (k, mapGet m k)) := by
  induction m with
  | nil => rfl
  | cons p rest ih =>
    obtain ⟨k0, c⟩ := p
    have hs0 : (∀ b ∈ mapKeys rest, k0 < b) ∧ (mapKeys rest).Sorted (· < ·) := by
      simpa [mapKeys] using hs
    have hrest : (mapKeys rest).map (fun k => (k, mapGet ((k0, c) :: rest) k))
        = (mapKeys rest).map (fun k => (k, mapGet rest k)) := by
      apply List.map_congr_left
      intro k hk
      have hne : k ≠ k0 := by
        have := hs0.1 k hk
        omega
      simp [mapGet, hne]
    have hk : mapKeys ((k0, c) :: rest) = k0 :: mapKeys rest := rfl
    rw [hk, List.map_cons, hrest, ← ih hs0.2]
    simp [mapGet]

theorem tabulates_unique {m1 m2 : FreqMap} {L : List Int} (h1 : Tabulates m1 L)
    (h2 : Tabulates m2 L) : m1 = m2 := by
  have hkeys : mapKeys m1 = mapKeys m2 := by
    apply List.eq_of_perm_of_sorted (r := (· < ·)) _ h1.1 h2.1
    rw [List.perm_ext_iff_of_nodup h1.1.nodup h2.1.nodup]
    intro k
    rw [h1.2.1 k, h2.2.1 k]
  rw [table_eq_map_keys m1 h1.1, table_eq_map_keys m2 h2.1, hkeys]
  apply List.map_congr_left
  intro k _
  rw [h1.2.2 k, h2.2.2 k]

theorem tabulates_countFrequenciesInRange (A : List Int) (hlen : A.length < 2147483648) :
    Tabulates (countFrequenciesInRange A 0 A.length) A := by
  have := tabulates_foldl_incr A [] [] tabulates_nil (by simpa using hlen)
  simpa [countFrequenciesInRange] using this

theorem mergedTable_eq_one_pass (A : List Int) (w : Nat) (hw : 1 ≤ w)
    (hlen : A.length < 2147483648) :
    mergedTable A w = countFrequenciesInRange A 0 A.length :=
  tabulates_unique (tabulates_mergedTable A w hw hlen) (tabulates_countFrequenciesInRange A hlen)

/-! ## Claims about the segmentation -/

theorem segmentBounds_ordered (n w i j : Nat) (hij : i < j) (hj : j < w) :
    (segmentBounds n w i).2 ≤ (segmentBounds n w j).1 := by
  have hi : i ≠ w - 1 := by omega
  simp only [segmentBounds, if_neg hi]
  calc i * (n / w) + n / w = (i + 1) * (n / w) := by rw [Nat.succ_mul]
    _ ≤ j * (n / w) := Nat.mul_le_mul_right _ hij

theorem segmentBounds_le (n w i : Nat) (hi : i < w) :
    (segmentBounds n w i).1 ≤ (segmentBounds n w i).2 ∧ (segmentBounds n w i).2 ≤ n := by
  have hmul : (i + 1) * (n / w) ≤ n :=
    le_trans (Nat.mul_le_mul_right _ hi) (Nat.mul_div_le n w |> fun h => by rwa [Nat.mul_comm] at h ⊢)
  have hmul0 : i * (n / w) ≤ (i + 1) * (n / w) := Nat.mul_le_mul_right _ (Nat.le_succ i)
  rw [Nat.succ_mul] at hmul hmul0
  simp only [segmentBounds]
  split_ifs with h
  · exact ⟨by omega, le_refl _⟩
  · exact ⟨by omega, hmul⟩

theorem segmentBounds_cover (n w j : Nat) (hw : 1 ≤ w) (hj : j < n) :
    ∃ i, i < w ∧ (segmentBounds n w i).1 ≤ j ∧ j < (segmentBounds n w i).2 := by
  simp only [segmentBounds]
  generalize n / w = s
  by_cases hs : 0 < s
  · by_cases hq : j / s < w - 1
    · have hne : j / s ≠ w - 1 := by omega
      refine ⟨j / s, by omega, Nat.div_mul_le_self j s, ?_⟩
      rw [if_neg hne]
      exact Nat.lt_div_mul_add hs
    · have hge : w - 1 ≤ j / s := by omega
      refine ⟨w - 1, by omega, ?_, ?_⟩
      · calc (w - 1) * s ≤ j / s * s := Nat.mul_le_mul_right _ hge
          _ ≤ j := Nat.div_mul_le_self j s
      · rw [if_pos rfl]
        exact hj
  · have hz : s = 0 := by omega
    subst hz
    refine ⟨w - 1, by omega, by simp, ?_⟩
    rw [if_pos rfl]
    exact hj

/-- Claim C18: for an array `A` (shorter than `2^31`) and a worker count
`w ≥ 1`, the `w` segments of `processArray`, with bounds `[i*s, (i+1)*s)` for
`i < w-1` and `[(w-1)*s, len(A))` for the last where `s = len(A) / w`, start
at `0`, end at `len(A)`, are contiguous, and every index of `A` lies in
exactly one of them; their concatenation is `A`; and the table obtained by
merging the per-segment tables equals the frequency table of the whole array
computed in one pass. -/
theorem segments_partition (A : List Int) (w : Nat) (hw : 1 ≤ w)
    (hlen : A.length < 2147483648) :
    (∀ i, i < w → segmentBounds A.length w i
        = (i * (A.length / w),
            if i = w - 1 then A.length else (i + 1) * (A.length / w))) ∧
    (segmentBounds A.length w 0).1 = 0 ∧
    (segmentBounds A.length w (w - 1)).2 = A.length ∧
    (∀ i, i + 1 < w →
        (segmentBounds A.length w i).2 = (segmentBounds A.length w (i + 1)).1) ∧
    (∀ j, j < A.length →
        ∃! i, i < w ∧ (segmentBounds A.length w i).1 ≤ j ∧ j < (segmentBounds A.length w i).2) ∧
    ((List.range w).map (fun i => segment A w i)).flatten = A ∧
    mergedTable A w = countFrequenciesInRange A 0 A.length := by
  refine ⟨?_, ?_, ?_, ?_, ?_, flatten_segments A w hw, mergedTable_eq_one_pass A w hw hlen⟩
  · intro i _
    simp only [segmentBounds, Nat.succ_mul]
  · simp [segmentBounds]
  · simp [segmentBounds]
  · intro i hi
    have hne : i ≠ w - 1 := by omega
    simp only [segmentBounds, if_neg hne, Nat.succ_mul]
  · intro j hj
    obtain ⟨i, hiw, h1, h2⟩ := segmentBounds_cover A.length w j hw hj
    refine ⟨i, ⟨hiw, h1, h2⟩, ?_⟩
    rintro i2 ⟨hi2w, h3, h4⟩
    rcases Nat.lt_trichotomy i2 i with hlt | heq | hgt
    · have := segmentBounds_ordered A.length w i2 i hlt hiw
      omega
    · exact heq
    · have := segmentBounds_ordered A.length w i i2 hgt hi2w
      omega

/-- Witness of `segments_partition` (claim C18) at the array
`[5, 3, 5, 1, 3, 5, 2]` with 3 workers: the segments are `[5, 3]`, `[5, 1]`
and `[3, 5, 2]`. -/
theorem segments_partition_witness :
    (List.range 3).map (fun i => segment [5, 3, 5, 1, 3, 5, 2] 3 i) = [[5, 3], [5, 1], [3, 5, 2]] ∧
    mergedTable [5, 3, 5, 1, 3, 5, 2] 3 = [(1, 1), (2, 1), (3, 2), (5, 3)] ∧
    ((∀ i, i < 3 → segmentBounds ([5, 3, 5, 1, 3, 5, 2] : List Int).length 3 i
        = (i * (([5, 3, 5, 1, 3, 5, 2] : List Int).length / 3),
            if i = 3 - 1 then ([5, 3, 5, 1, 3, 5, 2] : List Int).length
            else (i + 1) * (([5, 3, 5, 1, 3, 5, 2] : List Int).length / 3))) ∧
    (segmentBounds ([5, 3, 5, 1, 3, 5, 2] : List Int).length 3 0).1 = 0 ∧
    (segmentBounds ([5, 3, 5, 1, 3, 5, 2] : List Int).length 3 (3 - 1)).2
      = ([5, 3, 5, 1, 3, 5, 2] : List Int).length ∧
    (∀ i, i + 1 < 3 → (segmentBounds ([5, 3, 5, 1, 3, 5, 2] : List Int).length 3 i).2
        = (segmentBounds ([5, 3, 5, 1, 3, 5, 2] : List Int).length 3 (i + 1)).1) ∧
    (∀ j, j < ([5, 3, 5, 1, 3, 5, 2] : List Int).length →
        ∃! i, i < 3 ∧ (segmentBounds ([5, 3, 5, 1, 3, 5, 2] : List Int).length 3 i).1 ≤ j ∧
          j < (segmentBounds ([5, 3, 5, 1, 3, 5, 2] : List Int).length 3 i).2) ∧
    ((List.range 3).map (fun i => segment [5, 3, 5, 1, 3, 5, 2] 3 i)).flatten
      = [5, 3, 5, 1, 3, 5, 2] ∧
    mergedTable [5, 3, 5, 1, 3, 5, 2] 3
      = countFrequenciesInRange [5, 3, 5, 1, 3, 5, 2] 0 ([5, 3, 5, 1, 3, 5, 2] : List Int).length) :=
  ⟨by decide, by decide,
    segments_partition [5, 3, 5, 1, 3, 5, 2] 3 (by decide) (by decide)⟩

theorem and_255 (x : Nat) : x &&& 255 = x % 256 :=
  Nat.and_pow_two_sub_one_eq_mod x 8

theorem double_to_network_eq (temp : Nat) :
    double_to_network temp =
      [Fin.ofNat (temp / 2 ^ 56), Fin.ofNat (temp / 2 ^ 48), Fin.ofNat (temp / 2 ^ 40),
        Fin.ofNat (temp / 2 ^ 32), Fin.ofNat (temp / 2 ^ 24), Fin.ofNat (temp / 2 ^ 16),
        Fin.ofNat (temp / 2 ^ 8), Fin.ofNat temp] := by
  simp only [double_to_network, List.range, List.range.loop, List.map_cons, List.map_nil,
    Nat.shiftRight_eq_div_pow, and_255]
  simp [Fin.ofNat]

theorem or_shift_byte (a c s : Nat) (hc : c < 256) (ha : 2 ^ (s + 8) ∣ a) :
    a ||| (c <<< s) = a + c * 2 ^ s := by
  obtain ⟨q, rfl⟩ := ha
  have hlt : c * 2 ^ s < 2 ^ (s + 8) := by
    rw [Nat.pow_add, Nat.mul_comm (2 ^ s)]
    exact Nat.mul_lt_mul_of_pos_right hc (Nat.two_pow_pos s)
  rw [Nat.shiftLeft_eq, ← Nat.mul_add_lt_is_or hlt]

theorem network_to_double_eq (b0 b1 b2 b3 b4 b5 b6 b7 : Byte) :
    network_to_double [b0, b1, b2, b3, b4, b5, b6, b7] =
      b0.val * 2 ^ 56 + b1.val * 2 ^ 48 + b2.val * 2 ^ 40 + b3.val * 2 ^ 32 + b4.val * 2 ^ 24
        + b5.val * 2 ^ 16 + b6.val * 2 ^ 8 + b7.val := by
  have h0 := b0.isLt
  have h1 := b1.isLt
  have h2 := b2.isLt
  have h3 := b3.isLt
  have h4 := b4.isLt
  have h5 := b5.isLt
  have h6 := b6.isLt
  have h7 := b7.isLt
  simp only [network_to_double, List.range, List.range.loop, List.foldl_cons, List.foldl_nil,
    List.getD_cons_zero, List.getD_cons_succ]
  rw [or_shift_byte _ _ _ h0 (by decide), or_shift_byte _ _ _ h1 (by omega),
    or_shift_byte _ _ _ h2 (by omega), or_shift_byte _ _ _ h3 (by omega),
    or_shift_byte _ _ _ h4 (by omega), or_shift_byte _ _ _ h5 (by omega),
    or_shift_byte _ _ _ h6 (by omega), or_shift_byte _ _ _ h7 (by omega)]
  omega

theorem network_to_double_double_to_network (temp : Nat) :
    network_to_double (double_to_network temp) = temp % 18446744073709551616 := by
  rw [double_to_network_eq, network_to_double_eq]
  simp only [Fin.ofNat, Nat.reducePow]
  omega

theorem bigEndianBytes_four (x : Nat) : bigEndianBytes 4 x = htonl x := by
  simp [bigEndianBytes, htonl]

theorem bigEndianBytes_eight (x : Nat) : bigEndianBytes 8 x = double_to_network x := by
  rw [double_to_network_eq]
  simp [bigEndianBytes]

/-- Claim C14: for every bit pattern `b`, `double_to_network` writes exactly 8
bytes and byte `i` is `(b >> (56 - 8*i)) mod 256`: the pattern
most-significant byte first. -/
theorem double_to_network_bytes (b : Nat) :
    (double_to_network b).length = 8 ∧
      (∀ i, i < 8 → ((double_to_network b).getD i 0).val = (b >>> (56 - 8 * i)) % 256) ∧
      double_to_network b = bigEndianBytes 8 b := by
  refine ⟨by simp [double_to_network], ?_, (bigEndianBytes_eight b).symm⟩
  intro i hi
  rw [double_to_network_eq]
  have hcases : i = 0 ∨ i = 1 ∨ i = 2 ∨ i = 3 ∨ i = 4 ∨ i = 5 ∨ i = 6 ∨ i = 7 := by omega
  rcases hcases with h | h | h | h | h | h | h | h <;> subst h <;>
    simp [Fin.ofNat, Nat.shiftRight_eq_div_pow]

/-- Claim C12: for every 64-bit pattern `b`, `network_to_double` applied to the
bytes written by `double_to_network` gives back `b`; and for every signed
32-bit integer `x`, the four big-endian bytes sent for `x` decode to `x`. -/
theorem wire_round_trip (b : Nat) (x : Int) (hb : b < 18446744073709551616) (hx : isInt32 x) :
    network_to_double (double_to_network b) = b ∧
      toInt32 (ntohl (htonl (toUInt32 x))) = x := by
  constructor
  · rw [network_to_double_double_to_network]
    exact Nat.mod_eq_of_lt hb
  · have hu : toUInt32 x % 4294967296 = toUInt32 x := by
      unfold toUInt32
      omega
    rw [ntohl_htonl, hu]
    exact toInt32_toUInt32 x hx

/-- Witness of `wire_round_trip` (claim C12) at the bit pattern of the double
`-2.5` and at the integer `-2147483648`; the patterns of `0.0` and `4.5` are
evaluated as well. -/
theorem wire_round_trip_witness :
    (doubleBits (-5 / 2) = 0xC004000000000000 ∧
      (0xC004000000000000 : Nat) < 18446744073709551616 ∧ isInt32 (-2147483648)) ∧
    double_to_network 0xC004000000000000 = [0xC0, 0x04, 0, 0, 0, 0, 0, 0] ∧
    network_to_double (double_to_network (doubleBits 0)) = doubleBits 0 ∧
    network_to_double (double_to_network (doubleBits (9 / 2))) = doubleBits (9 / 2) ∧
    htonl (toUInt32 (-2147483648)) = [0x80, 0, 0, 0] ∧
    (network_to_double (double_to_network 0xC004000000000000) = 0xC004000000000000 ∧
      toInt32 (ntohl (htonl (toUInt32 (-2147483648)))) = -2147483648) :=
  ⟨by decide!, by decide, by decide!, by decide!, by decide,
    wire_round_trip 0xC004000000000000 (-2147483648) (by decide) (by decide)⟩

/-! ## Claims about receive_exact -/

theorem recv_empty (sock : Socket) (len : Nat) (hd : delivered sock = []) :
    ∃ sock1, recv sock len = (firstFailure sock, [], sock1) ∧ firstFailure sock ≤ 0 := by
  cases sock with
  | nil => exact ⟨[], rfl, by decide⟩
  | cons ev rest =>
    cases ev with
    | eof => exact ⟨rest, rfl, by simp [firstFailure]⟩
    | err => exact ⟨rest, rfl, by simp [firstFailure]⟩
    | data l =>
      cases l with
      | nil => exact ⟨rest, by simp [recv, firstFailure], by simp [firstFailure]⟩
      | cons b bs => simp [delivered] at hd

theorem firstFailure_data (l : List Byte) (rest : Socket) (hl : l ≠ []) :
    firstFailure (RecvEvent.data l :: rest) = firstFailure rest := by
  cases l with
  | nil => exact absurd rfl hl
  | cons b bs => rfl

theorem firstFailure_nonpos (sock : Socket) : firstFailure sock ≤ 0 ∧ -1 ≤ firstFailure sock := by
  induction sock with
  | nil => exact ⟨by decide, by decide⟩
  | cons ev rest ih =>
    cases ev with
    | eof => simp [firstFailure]
    | err => simp [firstFailure]
    | data l =>
      cases l with
      | nil => simp [firstFailure]
      | cons b bs => simpa [firstFailure] using ih

theorem recv_firstFailure (sock : Socket) (len : Nat)
    (hd : delivered sock ≠ []) :
    firstFailure (recv sock len).2.2 = firstFailure sock := by
  cases sock with
  | nil => simp [delivered] at hd
  | cons ev rest =>
    cases ev with
    | eof => simp [delivered] at hd
    | err => simp [delivered] at hd
    | data l =>
      have hl : l ≠ [] := by
        intro h
        subst h
        simp [delivered] at hd
      rw [firstFailure_data l rest hl]
      by_cases hle : l.length ≤ len
      · simp [recv, hle]
      · have hne : l.drop len ≠ [] := by
          intro h
          have := congrArg List.length h
          simp only [List.length_drop, List.length_nil] at this
          omega
        simp only [recv, if_neg hle]
        exact firstFailure_data _ rest hne

theorem receive_exact_loop_short (length : Nat) : ∀ (bound : Nat) (sock : Socket)
    (buffer : List Byte), length - buffer.length ≤ bound →
    (delivered sock).length < length - buffer.length →
    (receive_exact_loop length bound sock buffer).1 = firstFailure sock := by
  intro bound
  induction bound with
  | zero =>
    intro sock buffer h1 h2
    omega
  | succ bound ih =>
    intro sock buffer h1 h2
    have hlt : buffer.length < length := by omega
    by_cases hd : delivered sock = []
    · obtain ⟨sock1, hrecv, hneg⟩ := recv_empty sock (length - buffer.length) hd
      simp only [receive_exact_loop, if_pos hlt, hrecv, if_pos hneg]
    · obtain ⟨k, chunk, sock1, hrecv, hk0, hk1, hk2, hchunk, hdel⟩ :=
        recv_delivered sock (length - buffer.length) (by omega) hd
      have hff := recv_firstFailure sock (length - buffer.length) hd
      rw [hrecv] at hff
      have hcl : chunk.length = k := by
        rw [hchunk, List.length_take]
        omega
      have hkpos : ¬ ((k : Int) ≤ 0) := by omega
      simp only [receive_exact_loop, if_pos hlt, hrecv, if_neg hkpos]
      rw [ih sock1 (buffer ++ chunk) (by rw [List.length_append, hcl]; omega)
        (by rw [List.length_append, hcl, hdel, List.length_drop]; omega)]
      exact hff

/-- Claim C17: for `length > 0`, `receive_exact` returns `length` exactly when
the socket delivers at least `length` bytes before its first end of stream or
error, however the bytes are split into chunks; the buffer then holds the
first `length` bytes and no byte beyond them is consumed (every read asks
only for the bytes still missing).  Otherwise it returns the result of the
first `recv` that delivers nothing, `0` or `-1`, which the callers' test
`<= 0` treats as failure. -/
theorem receive_exact_result (sock : Socket) (length : Nat) (hpos : 0 < length) :
    ((receive_exact sock length).1 = (length : Int) ↔ length ≤ (delivered sock).length) ∧
    (length ≤ (delivered sock).length →
      (receive_exact sock length).2.1 = (delivered sock).take length ∧
      delivered (receive_exact sock length).2.2 = (delivered sock).drop length) ∧
    ((delivered sock).length < length →
      (receive_exact sock length).1 = firstFailure sock ∧ (receive_exact sock length).1 ≤ 0 ∧
      ((receive_exact sock length).1 = 0 ∨ (receive_exact sock length).1 = -1)) := by
  have hshort : (delivered sock).length < length →
      (receive_exact sock length).1 = firstFailure sock := by
    intro h
    exact receive_exact_loop_short length length sock [] (by simp) (by simpa using h)
  have hfull : length ≤ (delivered sock).length →
      (receive_exact sock length).1 = (length : Int) ∧
      (receive_exact sock length).2.1 = (delivered sock).take length ∧
      delivered (receive_exact sock length).2.2 = (delivered sock).drop length := by
    intro h
    obtain ⟨sock1, h1, h2⟩ := receive_exact_loop_delivered length length sock []
      (Nat.zero_le _) (by simp) (by simpa using h)
    simp only [List.length_nil, Nat.sub_zero, List.nil_append] at h1 h2
    unfold receive_exact
    rw [h1]
    exact ⟨rfl, rfl, h2⟩
  refine ⟨⟨?_, fun h => (hfull h).1⟩, fun h => (hfull h).2, ?_⟩
  · intro h
    by_contra hcon
    have := hshort (by omega)
    have hn := (firstFailure_nonpos sock).1
    omega
  · intro h
    have h1 := hshort h
    have hn := firstFailure_nonpos sock
    refine ⟨h1, by omega, by omega⟩

/-- Witness of `receive_exact_result` (claim C17): four bytes are requested from
a socket that delivers them in chunks of two, one and three bytes, and from
sockets that end, or fail, after three bytes. -/
theorem receive_exact_result_witness :
    receive_exact [RecvEvent.data [1, 2], RecvEvent.data [3], RecvEvent.data [4, 5, 6]] 4
      = (4, [1, 2, 3, 4], [RecvEvent.data [5, 6]]) ∧
    (receive_exact [RecvEvent.data [1, 2], RecvEvent.data [3], RecvEvent.eof] 4).1 = 0 ∧
    (receive_exact [RecvEvent.data [1, 2], RecvEvent.data [3], RecvEvent.err] 4).1 = -1 ∧
    (((receive_exact [RecvEvent.data [1, 2], RecvEvent.data [3], RecvEvent.data [4, 5, 6]] 4).1
        = ((4 : Nat) : Int) ↔
      4 ≤ (delivered [RecvEvent.data [1, 2], RecvEvent.data [3], RecvEvent.data [4, 5, 6]]).length) ∧
    (4 ≤ (delivered [RecvEvent.data [1, 2], RecvEvent.data [3], RecvEvent.data [4, 5, 6]]).length →
      (receive_exact [RecvEvent.data [1, 2], RecvEvent.data [3], RecvEvent.data [4, 5, 6]] 4).2.1
        = (delivered [RecvEvent.data [1, 2], RecvEvent.data [3], RecvEvent.data [4, 5, 6]]).take 4 ∧
      delivered (receive_exact [RecvEvent.data [1, 2], RecvEvent.data [3], RecvEvent.data [4, 5, 6]] 4).2.2
        = (delivered [RecvEvent.data [1, 2], RecvEvent.data [3], RecvEvent.data [4, 5, 6]]).drop 4) ∧
    ((delivered [RecvEvent.data [1, 2], RecvEvent.data [3], RecvEvent.data [4, 5, 6]]).length < 4 →
      (receive_exact [RecvEvent.data [1, 2], RecvEvent.data [3], RecvEvent.data [4, 5, 6]] 4).1
        = firstFailure [RecvEvent.data [1, 2], RecvEvent.data [3], RecvEvent.data [4, 5, 6]] ∧
      (receive_exact [RecvEvent.data [1, 2], RecvEvent.data [3], RecvEvent.data [4, 5, 6]] 4).1 ≤ 0 ∧
      ((receive_exact [RecvEvent.data [1, 2], RecvEvent.data [3], RecvEvent.data [4, 5, 6]] 4).1 = 0 ∨
        (receive_exact [RecvEvent.data [1, 2], RecvEvent.data [3], RecvEvent.data [4, 5, 6]] 4).1 = -1))) :=
  ⟨by decide, by decide, by decide,
    receive_exact_result [RecvEvent.data [1, 2], RecvEvent.data [3], RecvEvent.data [4, 5, 6]] 4
      (by decide)⟩

/-! ## Further claims about the session -/

theorem handleMessage_submitFrame (st : Session) (sock : Socket) (array : List Int)
    (num_threads : Nat) (tail : List Byte) (hn1 : 1 ≤ array.length)
    (hn2 : array.length ≤ 100000) (hint : ∀ x ∈ array, isInt32 x)
    (hw : num_threads < 4294967296)
    (h : delivered sock = submitFrame array num_threads ++ tail) :
    ∃ sock1, handleMessage st sock =
        Outcome.proceed { arrays := st.arrays ++ [array], threadCounts := st.threadCounts ++ [num_threads], data_received := true, results := st.results, computation_done := st.computation_done } [] sock1 ∧
      delivered sock1 = tail := by
  have hsize : ntohl (htonl array.length) = array.length := by
    rw [ntohl_htonl]
    omega
  have hthreads : ntohl (htonl num_threads) = num_threads := by
    rw [ntohl_htonl]
    omega
  have hframe : delivered sock = 0x01 :: (htonl array.length ++ (htonl num_threads ++
      (encodeArray array ++ tail))) := by
    rw [h]
    simp [submitFrame]
  obtain ⟨sock3, d3, hm⟩ := handleMessage_submit st sock (htonl array.length)
    (htonl num_threads) (encodeArray array ++ tail) rfl rfl hframe
  obtain ⟨sock4, h4, d4⟩ := receive_exact_delivered sock3 (encodeArray array) tail d3
  rw [length_encodeArray] at h4
  refine ⟨sock4, ?_, d4⟩
  have hbad : ¬ (array.length > MAX_ARRAY_SIZE ∨ array.length = 0) := by
    unfold MAX_ARRAY_SIZE
    omega
  have hpos : ¬ (((array.length * 4 : Nat) : Int) ≤ 0) := by omega
  rw [hm, hsize, hthreads, if_neg hbad, h4]
  simp only [if_neg hpos, decodeArray_encodeArray array hint]

theorem handleMessage_proceed_other (st st1 : Session) (sock sock1 : Socket)
    (sent : List Byte) (b : Byte) (tail : List Byte) (hd : delivered sock = b :: tail)
    (hb : b ≠ 0x02) (h : handleMessage st sock = Outcome.proceed st1 sent sock1) :
    (∃ a t, st1 = { st with arrays := st.arrays ++ [a], threadCounts := st.threadCounts ++ [t],
                            data_received := true }) ∨ st1 = st := by
  obtain ⟨s1, hr, _⟩ := receive_exact_one sock b tail hd
  unfold handleMessage at h
  rw [hr] at h
  simp only [List.headD_cons] at h
  generalize receive_exact s1 4 = r1 at h
  obtain ⟨n1, sizeBytes, s2⟩ := r1
  simp only at h
  generalize receive_exact s2 4 = r2 at h
  obtain ⟨n2, threadBytes, s3⟩ := r2
  simp only at h
  generalize receive_exact s3 (ntohl sizeBytes * 4) = r3 at h
  obtain ⟨n3, arrayBytes, s4⟩ := r3
  simp only [if_neg hb] at h
  split_ifs at h
  all_goals first
    | (cases h; done)
    | (cases h; exact Or.inr rfl)
    | (cases h; exact Or.inl ⟨_, _, rfl⟩)

theorem reachableWithoutCompute_invariant (st : Session) (hr : ReachableWithoutCompute st) :
    st.computation_done = false ∧ (st.data_received = true ↔ st.arrays ≠ []) := by
  induction hr with
  | initial => simp [Session.initial]
  | step st st1 sock sock1 sent b tail _ hd hb hstep ih =>
    rcases handleMessage_proceed_other st st1 sock sock1 sent b tail hd hb hstep with
      ⟨a, t, rfl⟩ | rfl
    · exact ⟨ih.1, by simp⟩
    · exact ih

theorem reachableWithoutCompute_submit :
    ReachableWithoutCompute { arrays := [[7]], threadCounts := [1], data_received := true, results := [], computation_done := false } :=
  ReachableWithoutCompute.step Session.initial _ [RecvEvent.data (submitFrame [7] 1)] [] []
    0x01 (htonl 1 ++ htonl 1 ++ encodeArray [7]) ReachableWithoutCompute.initial
    (by decide) (by decide) (by decide)

/-- Claim C15, evaluated on the code: when the connection ends, or fails,
inside a SubmitArray frame (in the array-length word, in the worker-count
word or in the array body) the handler calls `error()`, which ends the whole
process with `exit(EXIT_FAILURE)`; only a failed read of the discriminator
closes just this connection. -/
theorem short_read_exits_process :
    handleClient 5 [RecvEvent.data [0x01, 0x00, 0x00]] = Outcome.exited [] ∧
    handleClient 5 [RecvEvent.data [0x01, 0x00, 0x00], RecvEvent.err] = Outcome.exited [] ∧
    handleClient 5 [RecvEvent.data [0x01, 0, 0, 0, 2, 0, 0]] = Outcome.exited [] ∧
    handleClient 5 [RecvEvent.data ([0x01] ++ htonl 2 ++ htonl 1 ++ [0, 0, 0, 7]), RecvEvent.eof]
      = Outcome.exited [] ∧
    handleClient 5 [RecvEvent.eof] = Outcome.closed Session.initial [] := by
  refine ⟨by decide, by decide, by decide, by decide, by decide⟩

/-- Claim C16 as stated fails.  After the single message SubmitArray(`[7]`,
1 worker), with no Compute handled, FetchResults is answered with the status
`0x01`, not `0x02`. -/
theorem fetch_before_compute_counterexample :
    sessionLoop 2 Session.initial [RecvEvent.data (submitFrame [7] 1 ++ [0x03])] []
      = Outcome.closed { arrays := [[7]], threadCounts := [1], data_received := true, results := [], computation_done := false } [0x01] ∧
    ¬ (∀ st, ReachableWithoutCompute st → ∀ sock tail, delivered sock = 0x03 :: tail →
        ∃ payload sock1, handleMessage st sock = Outcome.proceed st (0x02 :: payload) sock1) := by
  refine ⟨by decide, ?_⟩
  intro hall
  obtain ⟨payload, sock1, h⟩ := hall _ reachableWithoutCompute_submit
    [RecvEvent.data [0x03]] [] (by decide)
  have hreal : handleMessage { arrays := [[7]], threadCounts := [1], data_received := true, results := [], computation_done := false } [RecvEvent.data [0x03]]
      = Outcome.proceed { arrays := [[7]], threadCounts := [1], data_received := true, results := [], computation_done := false } [0x01] [] := by decide
  rw [hreal] at h
  simp at h

/-- Claim C16 as amended: in every session in which no Compute message has
been handled yet, `computation_done` is false and a FetchResults message is
answered with the single status byte `0x02` if no SubmitArray has been handled
either (`data_received` false, no array stored) and with the single status byte
`0x01` if at least one SubmitArray has been handled; the state is unchanged. -/
theorem fetch_without_compute (st : Session) (sock : Socket) (tail : List Byte)
    (hr : ReachableWithoutCompute st) (h : delivered sock = 0x03 :: tail) :
    st.computation_done = false ∧ (st.data_received = true ↔ st.arrays ≠ []) ∧
      ∃ sock1, handleMessage st sock
          = Outcome.proceed st [if st.arrays = [] then 0x02 else 0x01] sock1 ∧
        delivered sock1 = tail := by
  obtain ⟨hc, hd⟩ := reachableWithoutCompute_invariant st hr
  obtain ⟨sock1, hdel, hm⟩ := handleMessage_fetch st sock tail h
  refine ⟨hc, hd, sock1, ?_, hdel⟩
  rw [hm]
  by_cases ha : st.arrays = []
  · have hdf : st.data_received = false := by
      cases hdr : st.data_received with
      | false => rfl
      | true => exact absurd ha (hd.1 hdr)
    simp [hc, hdf, ha]
  · have hdt : st.data_received = true := hd.2 ha
    simp [hc, hdt, ha]

/-- Witness of `fetch_without_compute` (claim C16 as amended) at the state
reached by one SubmitArray, and at the initial state. -/
theorem fetch_without_compute_witness :
    ReachableWithoutCompute { arrays := [[7]], threadCounts := [1], data_received := true, results := [], computation_done := false } ∧
    handleMessage Session.initial [RecvEvent.data [0x03]]
      = Outcome.proceed Session.initial [0x02] [] ∧
    (false = false ∧ (true = true ↔ ([[7]] : List (List Int)) ≠ []) ∧
      ∃ sock1, handleMessage { arrays := [[7]], threadCounts := [1], data_received := true, results := [], computation_done := false } [RecvEvent.data [0x03]]
          = Outcome.proceed { arrays := [[7]], threadCounts := [1], data_received := true, results := [], computation_done := false } [if ([[7]] : List (List Int)) = [] then 0x02 else 0x01] sock1 ∧
        delivered sock1 = []) :=
  ⟨reachableWithoutCompute_submit, by decide,
    fetch_without_compute _ [RecvEvent.data [0x03]] [] reachableWithoutCompute_submit (by decide)⟩

/-- Claim C19: let a Compute message handled in a state with `data_received`
true and `n ≥ 1` arrays have produced the state `st`.  A valid SubmitArray
handled in `st` leaves `computation_done` true and `results` untouched while
the array list grows to `n + 1`; a FetchResults handled next is answered with
`0x00` and a payload that starts with the result count `n` and holds the `n`
old results. -/
theorem submit_after_compute (st0 st : Session) (sock0 sockA sock : Socket)
    (sent0 tail0 tail : List Byte) (array : List Int) (num_threads : Nat)
    (hd : st0.data_received = true) (_hn : 1 ≤ st0.arrays.length)
    (hfirst : delivered sock0 = 0x02 :: tail0)
    (h0 : handleMessage st0 sock0 = Outcome.proceed st sent0 sockA)
    (hn1 : 1 ≤ array.length) (hn2 : array.length ≤ 100000) (hint : ∀ x ∈ array, isInt32 x)
    (hw : num_threads < 4294967296)
    (h : delivered sock = submitFrame array num_threads ++ 0x03 :: tail) :
    st.results.length = st0.arrays.length ∧
    ∃ st1 sock1 sock2, handleMessage st sock = Outcome.proceed st1 [] sock1 ∧
      st1.computation_done = true ∧ st1.results = st.results ∧
      st1.arrays = st0.arrays ++ [array] ∧ st1.arrays.length = st0.arrays.length + 1 ∧
      handleMessage st1 sock1 = Outcome.proceed st1
        (0x00 :: (htonl st0.arrays.length ++ st.results.flatMap sendResult)) sock2 ∧
      delivered sock2 = tail := by
  obtain ⟨sockB, _, hA⟩ := handleMessage_compute st0 sock0 tail0 hfirst
  rw [hA, if_pos hd] at h0
  cases hrs : computeResults st0.arrays st0.threadCounts with
  | none => simp [hrs] at h0
  | some rs =>
    simp only [hrs, Outcome.proceed.injEq] at h0
    obtain ⟨hst, _, _⟩ := h0
    subst hst
    obtain ⟨hl, _⟩ := computeResults_some _ _ _ hrs
    obtain ⟨sock1, hsub, d1⟩ := handleMessage_submitFrame
      { st0 with results := rs, computation_done := true } sock array num_threads
      (0x03 :: tail) hn1 hn2 hint hw h
    obtain ⟨sock2, d2, hf⟩ := handleMessage_fetch _ sock1 tail d1
    refine ⟨hl, _, sock1, sock2, hsub, rfl, rfl, rfl, by simp, ?_, d2⟩
    rw [hf]
    simp [sendResults, hl]

/-- Witness of `submit_after_compute` (claim C19): Compute over the one array
`[7]`, then SubmitArray(`[8]`, 1 worker) and FetchResults; the reply is
`0x00`, the result count `1`, and the result of `[7]`. -/
theorem submit_after_compute_witness :
    sessionLoop 3 { arrays := [[7]], threadCounts := [1], data_received := true, results := [], computation_done := false }
        [RecvEvent.data ([0x02] ++ submitFrame [8] 1 ++ [0x03])] []
      = Outcome.closed { arrays := [[7], [8]], threadCounts := [1, 1], data_received := true, results := [{ mode := [7], median := 7 }], computation_done := true }
          [0x00, 0x00, 0, 0, 0, 1, 0, 0, 0, 1, 0, 0, 0, 7, 0x40, 0x1C, 0, 0, 0, 0, 0, 0] ∧
    (([{ mode := [7], median := 7 }] : List Result).length = ([[7]] : List (List Int)).length ∧
    ∃ st1 sock1 sock2, handleMessage { arrays := [[7]], threadCounts := [1], data_received := true, results := [{ mode := [7], median := 7 }], computation_done := true } [RecvEvent.data (submitFrame [8] 1 ++ [0x03])] = Outcome.proceed st1 [] sock1 ∧
      st1.computation_done = true ∧ st1.results = [{ mode := [7], median := 7 }] ∧
      st1.arrays = [[7]] ++ [[8]] ∧ st1.arrays.length = ([[7]] : List (List Int)).length + 1 ∧
      handleMessage st1 sock1 = Outcome.proceed st1
        (0x00 :: (htonl ([[7]] : List (List Int)).length ++ ([{ mode := [7], median := 7 }] : List Result).flatMap sendResult)) sock2 ∧
      delivered sock2 = []) :=
  ⟨by decide!,
    submit_after_compute { arrays := [[7]], threadCounts := [1], data_received := true, results := [], computation_done := false }
      { arrays := [[7]], threadCounts := [1], data_received := true, results := [{ mode := [7], median := 7 }], computation_done := true }
      [RecvEvent.data [0x02]] [] [RecvEvent.data (submitFrame [8] 1 ++ [0x03])] [0x00] [] [] [8] 1
      rfl (by decide) (by decide) (by decide!) (by decide) (by decide) (by decide) (by decide)
      (by decide)⟩

/-! ## Claims about the result payload -/

theorem sorted_foldl_incr (xs : List Int) : ∀ (m : FreqMap), (mapKeys m).Sorted (· < ·) →
    (mapKeys (xs.foldl (fun m x => mapAdd m x 1) m)).Sorted (· < ·) := by
  induction xs with
  | nil => intro m h; exact h
  | cons x rest ih =>
    intro m h
    exact ih _ (sorted_mapAdd m x 1 h)

theorem sorted_foldl_pairs (es : FreqMap) : ∀ (m : FreqMap), (mapKeys m).Sorted (· < ·) →
    (mapKeys (es.foldl (fun m pair => mapAdd m pair.1 pair.2) m)).Sorted (· < ·) := by
  induction es with
  | nil => intro m h; exact h
  | cons p rest ih =>
    intro m h
    exact ih _ (sorted_mapAdd m p.1 p.2 h)

theorem sorted_mergeMaps_from (maps : List FreqMap) : ∀ (acc : FreqMap),
    (mapKeys acc).Sorted (· < ·) →
    (mapKeys (maps.foldl (fun acc freq => freq.foldl (fun m pair => mapAdd m pair.1 pair.2) acc)
      acc)).Sorted (· < ·) := by
  induction maps with
  | nil => intro acc h; exact h
  | cons f rest ih =>
    intro acc h
    exact ih _ (sorted_foldl_pairs f acc h)

theorem sorted_mergedTable (A : List Int) (w : Nat) :
    (mapKeys (mergedTable A w)).Sorted (· < ·) := by
  unfold mergedTable mergeMaps
  exact sorted_mergeMaps_from _ [] (by simp [mapKeys])

theorem processArray_mode_sorted (A : List Int) (w : Nat) (r : Result)
    (h : processArray A w = some r) : r.mode.Sorted (· < ·) := by
  unfold processArray at h
  split_ifs at h
  cases hm : findMedian (mergedTable A w) A.length with
  | none => simp [hm] at h
  | some med =>
    simp only [hm, Option.some.injEq] at h
    subst h
    exact findMode_sorted _ (sorted_mergedTable A w)

theorem reachable_results_computed (st : Session) (hr : Reachable st) :
    ∀ r ∈ st.results, ∃ a t, processArray a t = some r := by
  induction hr with
  | initial =>
    intro r hmem
    simp [Session.initial] at hmem
  | step st st1 sock sock1 sent _ hstep ih =>
    rcases handleMessage_proceed st st1 sock sock1 sent hstep with
      ⟨a, t, rfl⟩ | ⟨_, rs, hrs, rfl⟩ | rfl
    · exact ih
    · intro r hmem
      obtain ⟨hl, hi⟩ := computeResults_some _ _ _ hrs
      obtain ⟨i, hlt, hget⟩ := List.getElem_of_mem hmem
      obtain ⟨a, t, r2, _, _, h3, h4⟩ := hi i (by simpa [hl] using hlt)
      have h5 : rs[i]? = some r := by
        rw [List.getElem?_eq_getElem hlt, hget]
      rw [h5] at h3
      cases h3
      exact ⟨a, t, h4⟩
    · exact ih

theorem length_double_to_network (temp : Nat) : (double_to_network temp).length = 8 := by
  simp [double_to_network]

theorem length_sendResult (r : Result) : (sendResult r).length = 12 + 4 * r.mode.length := by
  have h := length_encodeArray r.mode
  unfold encodeArray at h
  simp only [sendResult, List.length_append, length_htonl, length_double_to_network, h]
  omega

theorem length_sendResults (results : List Result) :
    (sendResults results).length = 4 + (results.map (fun r => 12 + 4 * r.mode.length)).sum := by
  have hflat : ∀ rs : List Result, (rs.flatMap sendResult).length
      = (rs.map (fun r => 12 + 4 * r.mode.length)).sum := by
    intro rs
    induction rs with
    | nil => rfl
    | cons r rest ih =>
      simp only [List.flatMap_cons, List.length_append, length_sendResult, ih, List.map_cons,
        List.sum_cons]
  simp only [sendResults, List.length_append, length_htonl, hflat]

theorem sendResults_bigEndian (results : List Result) :
    sendResults results = bigEndianBytes 4 results.length ++ results.flatMap (fun r =>
      bigEndianBytes 4 r.mode.length
        ++ r.mode.flatMap (fun v => bigEndianBytes 4 (v % 4294967296).toNat)
        ++ bigEndianBytes 8 (doubleBits r.median)) := by
  simp only [sendResults, bigEndianBytes_four, bigEndianBytes_eight]
  rfl

/-- Claim C13: in a reachable session state with `computation_done` true, the
bytes sent for FetchResults after the status `0x00` are: the number of
results as 4 big-endian bytes, then for each result in list order the mode
length as 4 big-endian bytes, each mode value (two's complement) as 4
big-endian bytes, the mode values being strictly ascending, and the 8
big-endian bytes of the bit pattern of the median.  The payload has
`4 + Σ (12 + 4 * modeSize)` bytes. -/
theorem fetch_payload (st : Session) (sock : Socket) (tail : List Byte) (hr : Reachable st)
    (hc : st.computation_done = true) (h : delivered sock = 0x03 :: tail) :
    ∃ payload sock1, handleMessage st sock = Outcome.proceed st (0x00 :: payload) sock1 ∧
      delivered sock1 = tail ∧
      payload = bigEndianBytes 4 st.results.length ++ st.results.flatMap (fun r =>
        bigEndianBytes 4 r.mode.length
          ++ r.mode.flatMap (fun v => bigEndianBytes 4 (v % 4294967296).toNat)
          ++ bigEndianBytes 8 (doubleBits r.median)) ∧
      payload.length = 4 + (st.results.map (fun r => 12 + 4 * r.mode.length)).sum ∧
      ∀ r ∈ st.results, r.mode.Sorted (· < ·) := by
  obtain ⟨sock1, hdel, hm⟩ := handleMessage_fetch st sock tail h
  refine ⟨sendResults st.results, sock1, ?_, hdel, sendResults_bigEndian _,
    length_sendResults _, ?_⟩
  · rw [hm]
    simp [hc]
  · intro r hmem
    obtain ⟨a, t, hp⟩ := reachable_results_computed st hr r hmem
    exact processArray_mode_sorted a t r hp

/-- Witness of `fetch_payload` (claim C13) at the state reached by
SubmitArray(`[7]`, 1 worker), Compute, SubmitArray(`[8]`, 1 worker): the
payload is the count `1`, the mode length `1`, the mode value `7` and the
pattern `0x401C000000000000` of the median `7.0`. -/
theorem fetch_payload_witness :
    (Reachable { arrays := [[7], [8]], threadCounts := [1, 1], data_received := true, results := [{ mode := [7], median := 7 }], computation_done := true } ∧
      delivered [RecvEvent.data [0x03]] = 0x03 :: []) ∧
    handleMessage { arrays := [[7], [8]], threadCounts := [1, 1], data_received := true, results := [{ mode := [7], median := 7 }], computation_done := true } [RecvEvent.data [0x03]]
      = Outcome.proceed { arrays := [[7], [8]], threadCounts := [1, 1], data_received := true, results := [{ mode := [7], median := 7 }], computation_done := true }
          [0x00, 0, 0, 0, 1, 0, 0, 0, 1, 0, 0, 0, 7, 0x40, 0x1C, 0, 0, 0, 0, 0, 0] [] ∧
    ∃ payload sock1, handleMessage { arrays := [[7], [8]], threadCounts := [1, 1], data_received := true, results := [{ mode := [7], median := 7 }], computation_done := true } [RecvEvent.data [0x03]]
        = Outcome.proceed { arrays := [[7], [8]], threadCounts := [1, 1], data_received := true, results := [{ mode := [7], median := 7 }], computation_done := true } (0x00 :: payload) sock1 ∧
      delivered sock1 = [] ∧
      payload = bigEndianBytes 4 ([{ mode := [7], median := 7 }] : List Result).length ++ ([{ mode := [7], median := 7 }] : List Result).flatMap (fun r =>
        bigEndianBytes 4 r.mode.length
          ++ r.mode.flatMap (fun v => bigEndianBytes 4 (v % 4294967296).toNat)
          ++ bigEndianBytes 8 (doubleBits r.median)) ∧
      payload.length = 4 + (([{ mode := [7], median := 7 }] : List Result).map (fun r => 12 + 4 * r.mode.length)).sum ∧
      ∀ r ∈ ([{ mode := [7], median := 7 }] : List Result), r.mode.Sorted (· < ·) :=
  ⟨⟨reachable_submit_compute_submit, by decide⟩, by decide!,
    fetch_payload _ [RecvEvent.data [0x03]] [] reachable_submit_compute_submit rfl (by decide)⟩

/-! ## Claims about the mode list and the client -/

theorem findMode_ne_nil {m : FreqMap} {L : List Int} (h : Tabulates m L) (hL : L ≠ []) :
    findMode m ≠ [] := by
  obtain ⟨x, hx⟩ := List.exists_mem_of_ne_nil L hL
  obtain ⟨p, hp, _⟩ := List.mem_map.1 ((h.2.1 x).2 hx)
  have hpos := (tabulates_pos h p hp).2
  have hle := foldl_max_ge_mem m 0 p hp
  rcases foldl_max_attained m 0 with h0 | ⟨q, hq, hqmax⟩
  · omega
  · have hmem : q.1 ∈ findMode m := by
      simp only [findMode, List.mem_map, List.mem_filter]
      exact ⟨q, ⟨hq, by simpa using hqmax⟩, rfl⟩
    exact List.ne_nil_of_mem hmem

theorem findMode_length_le {m : FreqMap} {L : List Int} (h : Tabulates m L) :
    (findMode m).length ≤ L.dedup.length := by
  have hnodup : (findMode m).Nodup := (findMode_sorted m h.1).nodup
  have hsub : findMode m ⊆ L.dedup := by
    intro v hv
    exact List.mem_dedup.2 ((findMode_tabulates h v).1 hv).1
  exact (List.subperm_of_subset hnodup hsub).length_le

theorem clientReadResult_sendResult (r : Result) (sock : Socket) (tail : List Byte)
    (hne : r.mode ≠ []) (hlen : r.mode.length < 4294967296) (hint : ∀ v ∈ r.mode, isInt32 v)
    (h : delivered sock = sendResult r ++ tail) :
    ∃ sock1, clientReadResult sock
        = some ((r.mode, network_to_double (double_to_network (doubleBits r.median))), sock1) ∧
      delivered sock1 = tail := by
  have hframe : delivered sock = htonl r.mode.length ++ (encodeArray r.mode ++
      (double_to_network (doubleBits r.median) ++ tail)) := by
    rw [h]
    simp [sendResult, encodeArray]
  obtain ⟨sock1, h1, d1⟩ := receive_exact_four sock (htonl r.mode.length) _ rfl hframe
  obtain ⟨sock2, h2, d2⟩ := receive_exact_delivered sock1 (encodeArray r.mode) _ d1
  obtain ⟨sock3, h3, d3⟩ := receive_exact_delivered sock2
    (double_to_network (doubleBits r.median)) tail d2
  rw [length_encodeArray] at h2
  rw [length_double_to_network] at h3
  have hsize : ntohl (htonl r.mode.length) = r.mode.length := by
    rw [ntohl_htonl]
    omega
  have hpos : 0 < r.mode.length := List.length_pos.2 hne
  have hpos2 : ¬ (((r.mode.length * 4 : Nat) : Int) ≤ 0) := by omega
  refine ⟨sock3, ?_, d3⟩
  unfold clientReadResult
  simp only [h1, hsize, h2, h3, if_neg hpos2, decodeArray_encodeArray r.mode hint]
  simp

theorem clientReadLoop_flatMap (results : List Result) : ∀ (sock : Socket) (tail : List Byte),
    (∀ r ∈ results, r.mode ≠ [] ∧ r.mode.length < 4294967296 ∧ ∀ v ∈ r.mode, isInt32 v) →
    delivered sock = results.flatMap sendResult ++ tail →
    ∃ sock1, clientReadLoop results.length sock
        = some (results.map (fun r =>
            (r.mode, network_to_double (double_to_network (doubleBits r.median)))), sock1) ∧
      delivered sock1 = tail := by
  induction results with
  | nil =>
    intro sock tail _ h
    exact ⟨sock, rfl, by simpa using h⟩
  | cons r rest ih =>
    intro sock tail hres h
    have hr := hres r (List.mem_cons_self _ _)
    obtain ⟨sock1, h1, d1⟩ := clientReadResult_sendResult r sock
      (rest.flatMap sendResult ++ tail) hr.1 hr.2.1 hr.2.2 (by simpa using h)
    obtain ⟨sock2, h2, d2⟩ := ih sock1 tail (fun q hq => hres q (List.mem_cons_of_mem _ hq)) d1
    refine ⟨sock2, ?_, d2⟩
    simp [clientReadLoop, h1, h2]

theorem clientReadResults_sendResults (results : List Result) (sock : Socket)
    (tail : List Byte) (hcount : results.length < 4294967296)
    (hres : ∀ r ∈ results, r.mode ≠ [] ∧ r.mode.length < 4294967296 ∧ ∀ v ∈ r.mode, isInt32 v)
    (h : delivered sock = sendResults results ++ tail) :
    ∃ sock1, clientReadResults sock
        = some (results.map (fun r =>
            (r.mode, network_to_double (double_to_network (doubleBits r.median)))), sock1) ∧
      delivered sock1 = tail := by
  have hframe : delivered sock = htonl results.length ++ (results.flatMap sendResult ++ tail) := by
    rw [h]
    simp [sendResults]
  obtain ⟨sock1, h1, d1⟩ := receive_exact_four sock (htonl results.length) _ rfl hframe
  obtain ⟨sock2, h2, d2⟩ := clientReadLoop_flatMap results sock1 tail hres d1
  have hsize : ntohl (htonl results.length) = results.length := by
    rw [ntohl_htonl]
    omega
  refine ⟨sock2, ?_, d2⟩
  unfold clientReadResults
  simp [h1, hsize, h2]

end StatServer
